import Mathlib

set_option maxRecDepth 8000

/-!
Shallow embedding of the rzlib streaming gzip/DEFLATE decoder
(src/bitreader.rs, src/huffman.rs, src/lookbackbuffer.rs, src/rzlibreader.rs).

Bytes are modelled as `Nat` (the byte source yields values < 256; arithmetic
that depends on byte width is written with explicit `% 2 ^ w` where the source
relies on wrapping).  Fallible Rust code returning `io::Result` is modelled
with an explicit result type that also distinguishes the Rust panics the
source can hit (`assert_eq!`, `todo!()`, slice/array index out of bounds,
the `panic!` in `HuffmanTree::insert_impl`, and the unreachable bit-value
branch in `decode`).  Loops whose termination is not structural are given a
fuel parameter; `Res.oof` marks fuel exhaustion (used to exhibit the
non-terminating loop of `read_impl` on a truncated stored block).
-/

/-- Error kinds of `std::io::ErrorKind` used by the source. -/
inductive Err where
  | invalidData
  | invalidInput
  | unexpectedEof
  | other
  deriving DecidableEq

/-- The distinct Rust panics reachable in the source. -/
inductive Pan where
  | assertBits      -- `assert_eq!(self.bits_count, 0)` in BitReader's Read/BufRead impls
  | todoUnimpl      -- `todo!()` in read_fixed_huffman_block_header
  | indexOOB        -- slice/array index out of bounds
  | insertConflict  -- `panic!("found existing value ...")` in HuffmanTree::insert_impl
  | badBit          -- `panic!("found bit neither 0 nor 1")`
  deriving DecidableEq

/-- Result of running a fragment of the decoder: `io::Result` success/failure,
a Rust panic, or fuel exhaustion (the fragment loops). -/
inductive Res (α : Type) where
  | ok (a : α)
  | err (e : Err)
  | panic (p : Pan)
  | oof
  deriving DecidableEq

def Res.bind {α β : Type} : Res α → (α → Res β) → Res β
  | .ok a, f => f a
  | .err e, _ => .err e
  | .panic p, _ => .panic p
  | .oof, _ => .oof

instance : Monad Res where
  pure := Res.ok
  bind := Res.bind

/-! ## BitReader (src/bitreader.rs)

The wrapped `BufRead` byte source is modelled as the list of bytes not yet
consumed (an in-memory reader such as `Cursor`: `fill_buf` exposes all
remaining bytes, `read` yields as many of the requested bytes as remain). -/

structure BitRd where
  input : List Nat
  bits : Nat
  bitsCount : Nat
  deriving DecidableEq

/-- `bitmask(n) = (1 << n) - 1` for `n < 64` (all bit widths used are ≤ 8). -/
def bitmask (n : Nat) : Nat := 2 ^ n - 1

/-- `BitRead::read_bits` for `BitReader`: returns `(value, bits_obtained, reader)`.
The `fill_buf` it performs internally happens only when `bits_count == 0`,
so the assertion in the `BufRead` impl cannot fire there. -/
def readBits (r : BitRd) (n : Nat) : Nat × Nat × BitRd :=
  if n = 0 then (0, 0, r)
  else if r.bitsCount = 0 then
    match r.input with
    | [] => (0, 0, r)
    | b :: rest =>
      -- load one byte, then emit the low `min n 8` bits of it
      let k := min n 8
      (b % 2 ^ k, k, ⟨rest, b / 2 ^ k, 8 - k⟩)
  else
    let k := min n r.bitsCount
    (r.bits % 2 ^ k, k, { r with bits := r.bits / 2 ^ k, bitsCount := r.bitsCount - k })

/-- Loop body of `read_bits_exact`.  Each successful iteration obtains at
least one bit, so `n` iterations suffice; the fuel only mirrors that bound. -/
def rbeGo : Nat → BitRd → Nat → Nat → Nat → Res (Nat × BitRd)
  | 0, r, n, total, out =>
    if total < n then .err .unexpectedEof else .ok (out, r)
  | fuel + 1, r, n, total, out =>
    if total < n then
      let (v, k, r') := readBits r (n - total)
      if k = 0 then .err .unexpectedEof
      else rbeGo fuel r' n (total + k) (out ||| (v <<< total))
    else .ok (out, r)

/-- `read_bits_exact(n)`: read exactly `n` bits, `UnexpectedEof` if the
stream ends first. -/
def readBitsExact (r : BitRd) (n : Nat) : Res (Nat × BitRd) :=
  rbeGo n r n 0 0

/-- `drop_remaining_bits`. -/
def dropRemainingBits (r : BitRd) : BitRd :=
  { r with bits := 0, bitsCount := 0 }

/-- `read_u8`: byte-aligned read through the inner reader (`self.reader`),
which does not consult or clear the bit buffer. -/
def readU8 (r : BitRd) : Res (Nat × BitRd) :=
  match r.input with
  | [] => .err .unexpectedEof
  | b :: rest => .ok (b, { r with input := rest })

/-- `read_u16` (little-endian), through the inner reader. -/
def readU16 (r : BitRd) : Res (Nat × BitRd) :=
  match r.input with
  | b0 :: b1 :: rest => .ok (b0 + 256 * b1, { r with input := rest })
  | _ => .err .unexpectedEof

/-- `read_u32` (little-endian), through the inner reader. -/
def readU32 (r : BitRd) : Res (Nat × BitRd) :=
  match r.input with
  | b0 :: b1 :: b2 :: b3 :: rest =>
    .ok (b0 + 256 * b1 + 65536 * b2 + 16777216 * b3, { r with input := rest })
  | _ => .err .unexpectedEof

/-- `Read::read` on the `BitReader` itself: asserts the bit buffer is empty,
then reads up to `n` bytes from the byte source. -/
def brRead (r : BitRd) (n : Nat) : Res (List Nat × BitRd) :=
  if r.bitsCount ≠ 0 then .panic .assertBits
  else .ok (r.input.take n, { r with input := r.input.drop n })

/-- `Read::read_exact` on the `BitReader` (used for FEXTRA and FHCRC):
goes through `BitReader`'s `Read` impl, hence the assertion. -/
def brReadExact (r : BitRd) (n : Nat) : Res (List Nat × BitRd) :=
  if r.bitsCount ≠ 0 then .panic .assertBits
  else if r.input.length < n then .err .unexpectedEof
  else .ok (r.input.take n, { r with input := r.input.drop n })

/-- `BufRead::fill_buf` on the `BitReader`: asserts the bit buffer is empty,
then exposes the remaining bytes. -/
def brFillBuf (r : BitRd) : Res (List Nat) :=
  if r.bitsCount ≠ 0 then .panic .assertBits
  else .ok r.input

/-! ## LookbackBuffer (src/lookbackbuffer.rs)

The `Vec<u8>` ring is modelled as its length (`data.len()`, constant after
construction) together with its contents as a function from index to byte:
`size` plays `self.data.len()` and `data i` plays `self.data[i]`.  The
decoder instantiates it with `lookback_size = 32768`. -/

structure LB where
  size : Nat
  data : Nat → Nat
  pos : Nat

/-- `data[i] = x`. -/
def setF (f : Nat → Nat) (i x : Nat) : Nat → Nat :=
  fun j => if j = i then x else f j

/-- `LookbackBuffer::new` (the source panics on size 0; only 32768 is used). -/
def lbNew (size : Nat) : LB :=
  ⟨size, fun _ => 0, 0⟩

/-- Write the elements of `s` at consecutive indices starting at `i`
(the effect of the source's `copy_from_slice` calls). -/
def overwriteF : (Nat → Nat) → Nat → List Nat → (Nat → Nat)
  | f, _, [] => f
  | f, i, x :: s => overwriteF (setF f i x) (i + 1) s

/-- The slice `data[i..i+n]` as a list (`n` consecutive reads from `i`). -/
def sliceF (f : Nat → Nat) : Nat → Nat → List Nat
  | _, 0 => []
  | i, n + 1 => f i :: sliceF f (i + 1) n

/-- `LookbackBuffer::write_data`. -/
def writeData (b : LB) (buf : List Nat) : Res LB :=
  if buf.length > b.size then .err .invalidInput
  else
    let spaceLeftBeforeWraparound := b.size - b.pos
    let data' :=
      if buf.length ≤ spaceLeftBeforeWraparound then
        overwriteF b.data b.pos buf
      else
        -- we need to chunk
        overwriteF (overwriteF b.data b.pos (buf.take spaceLeftBeforeWraparound)) 0
          (buf.drop spaceLeftBeforeWraparound)
    .ok ⟨b.size, data', (b.pos + buf.length) % b.size⟩

/-- `LookbackBuffer::write_byte` (its `io::Result` is always `Ok`). -/
def writeByte (b : LB) (x : Nat) : LB :=
  ⟨b.size, setF b.data b.pos x, (b.pos + 1) % b.size⟩

/-- `(d.drop i).take n` on plain lists (used for the header length vector). -/
def sliceL (d : List Nat) (i n : Nat) : List Nat :=
  (d.drop i).take n

/-- `LookbackBuffer::read_lookback_exact` returning the bytes copied into
`buf` (whose length is `dlen`). -/
def readLookbackExact (b : LB) (dlen distance : Nat) : Res (List Nat) :=
  if dlen > distance then .err .invalidInput
  else if distance > b.size then .err .invalidInput
  else if b.pos > distance then
    -- we can lookback without wrapping around
    .ok (sliceF b.data (b.pos - distance) dlen)
  else
    -- we must wrap around
    let wraparoundDistance := distance - b.pos
    let wraparoundPos := b.size - wraparoundDistance
    let wraparoundLength := min dlen (b.size - wraparoundPos)
    .ok (sliceF b.data wraparoundPos wraparoundLength ++
         sliceF b.data 0 (dlen - wraparoundLength))

/-! ## HuffmanTree (src/huffman.rs)

`HTree.nil` stands for the absent subtree (`Box<None>`); every tree actually
constructed is a `node`. -/

inductive HTree where
  | nil
  | node (value : Option Nat) (zero : HTree) (one : HTree)
  deriving DecidableEq

/-- `reverse_bits(a, len)`. -/
def reverseBitsGo : Nat → Nat → Nat → Nat
  | 0, _, b => b
  | len + 1, a, b => reverseBitsGo len (a / 2) (b * 2 + a % 2)

def reverseBits (a : Nat) (len : Nat) : Nat :=
  reverseBitsGo len a 0

/-- Projections reading an `HTree` as the triple `(value, zero, one)`;
`nil` (the absent subtree) reads as an empty node. -/
def HTree.valueOf : HTree → Option Nat
  | .nil => none
  | .node v _ _ => v

def HTree.zeroOf : HTree → HTree
  | .nil => .nil
  | .node _ z _ => z

def HTree.oneOf : HTree → HTree
  | .nil => .nil
  | .node _ _ o => o

/-- `HuffmanTree::insert_impl`: walk `len` bits of `code` LSB-first, creating
nodes as needed (`if self.zero.is_none() { ... HuffmanTree::new() }`); panics
on an already-occupied node.  Structurally recursive on `len` (each step
consumes one bit of the codeword). -/
def insertImpl (v : Nat) : Nat → Nat → HTree → Res HTree
  | 0, _, t =>
    match t.valueOf with
    | some _ => .panic .insertConflict
    | none => .ok (.node (some v) t.zeroOf t.oneOf)
  | len + 1, code, t =>
    match t.valueOf with
    | some _ => .panic .insertConflict
    | none =>
      if code % 2 = 0 then do
        let z' ← insertImpl v len (code / 2)
          (if t.zeroOf = .nil then .node none .nil .nil else t.zeroOf)
        .ok (.node none z' t.oneOf)
      else do
        let o' ← insertImpl v len (code / 2)
          (if t.oneOf = .nil then .node none .nil .nil else t.oneOf)
        .ok (.node none t.zeroOf o')

/-- `bl_count[k]`: how many entries of `lengths` equal `k` (the source counts
zero lengths too, at index 0, diverging from RFC 1951 which zeroes that slot). -/
def blCount (lengths : List Nat) (k : Nat) : Nat :=
  lengths.count k

/-- `next_code[k]` as left by the loop `code = (code + bl_count[bits-1]) << 1`. -/
def codeAt (lengths : List Nat) : Nat → Nat
  | 0 => 0
  | k + 1 => (codeAt lengths k + blCount lengths k) * 2

/-- Assignment loop of `new_from_lengths`: `nc` is the mutable `next_code`
vector (33 entries), `b` the current symbol. -/
def buildGo : List Nat → HTree → List Nat → Nat → Res HTree
  | _, t, [], _ => .ok t
  | nc, t, l :: rest, b =>
    if l = 0 then buildGo nc t rest (b + 1)
    else do
      let code := nc.getD l 0
      let t' ← insertImpl b l (reverseBits code l) t
      buildGo (nc.set l (code + 1)) t' rest (b + 1)

/-- `HuffmanTree::new_from_lengths`.  A length ≥ 32 would overflow the
source's `bl_count` vector (index out of bounds); no decoder path produces
one (code lengths are at most 15). -/
def newFromLengths (lengths : List Nat) : Res HTree :=
  if lengths.any (fun l => 32 ≤ l) then .panic .indexOOB
  else buildGo ((List.range 33).map (codeAt lengths)) (.node none .nil .nil) lengths 0

/-- The per-symbol codewords recorded by the construction loop, as
`(symbol, len, canonical code, bit-reversed code)`; mirrors the same
traversal as `buildGo`. -/
def assignGo : List Nat → List Nat → Nat → List (Nat × Nat × Nat × Nat)
  | _, [], _ => []
  | nc, l :: rest, b =>
    if l = 0 then assignGo nc rest (b + 1)
    else
      let code := nc.getD l 0
      (b, l, code, reverseBits code l) :: assignGo (nc.set l (code + 1)) rest (b + 1)

def assignCodes (lengths : List Nat) : List (Nat × Nat × Nat × Nat) :=
  assignGo ((List.range 33).map (codeAt lengths)) lengths 0

/-- `HuffmanTree::decode`, drawing bits from a `BitRd` (via
`read_bits_exact(1)` exactly as the source does).  Returns `none` for a
missing child ("failed to decode"); `Err` propagates EOF. -/
def decodeSym : HTree → BitRd → Res (Option Nat × BitRd)
  | .nil, r => .ok (none, r)   -- absent subtree (`None` child): "failed to decode"
  | .node (some v) _ _, r => .ok (some v, r)
  | .node none z o, r => do
    let (bit, r') ← readBitsExact r 1
    match bit with
    | 0 => decodeSym z r'
    | 1 => decodeSym o r'
    | _ + 2 => .panic .badBit

/-- Build a tree from lengths and decode one symbol against it (ties
`new_from_lengths` to `decode` the way the source's tests do). -/
def decodeBuilt (lengths : List Nat) (r : BitRd) : Res (Option Nat × BitRd) := do
  let t ← newFromLengths lengths
  decodeSym t r

/-- Extract the successfully built tree (used to name concrete trees in
theorem statements). -/
def treeOf (lengths : List Nat) : HTree :=
  match newFromLengths lengths with
  | .ok t => t
  | _ => .nil

/-! ## RZLibReader (src/rzlibreader.rs) -/

/-- `LOOKBACK_WINDOW_SIZE = 2^15`. -/
def lookbackWindowSize : Nat := 2 ^ 15

/-- Decoder states (`enum State`). -/
inductive St where
  | broken
  | memberHeader
  | blockHeader
  | noCompressionBlock (len : Nat) (isFinal : Bool)
  | huffmanBlock (litlenTree distanceTree : HTree) (isFinal : Bool)
  | huffmanBlockMatch (litlenTree distanceTree : HTree) (length distance : Nat) (isFinal : Bool)
  | memberTrailer
  | endOfFile
  deriving DecidableEq

/-- The `RZLibReader` (state, bit reader, lookback buffer). -/
structure Machine where
  st : St
  br : BitRd
  lb : LB

/-- `RZLibReader::new`. -/
def initM (input : List Nat) : Machine :=
  ⟨.memberHeader, ⟨input, 0, 0⟩, lbNew lookbackWindowSize⟩

/-- Validity of a byte sequence as UTF-8 (`String::from_utf8` succeeds),
per RFC 3629 ranges. -/
def utf8Valid : List Nat → Bool
  | [] => true
  | b :: rest =>
    if b < 0x80 then utf8Valid rest
    else if 0xC2 ≤ b ∧ b ≤ 0xDF then
      match rest with
      | c1 :: r => (0x80 ≤ c1 ∧ c1 ≤ 0xBF) ∧ utf8Valid r
      | [] => false
    else if b = 0xE0 then
      match rest with
      | c1 :: c2 :: r => (0xA0 ≤ c1 ∧ c1 ≤ 0xBF) ∧ (0x80 ≤ c2 ∧ c2 ≤ 0xBF) ∧ utf8Valid r
      | _ => false
    else if (0xE1 ≤ b ∧ b ≤ 0xEC) ∨ b = 0xEE ∨ b = 0xEF then
      match rest with
      | c1 :: c2 :: r => (0x80 ≤ c1 ∧ c1 ≤ 0xBF) ∧ (0x80 ≤ c2 ∧ c2 ≤ 0xBF) ∧ utf8Valid r
      | _ => false
    else if b = 0xED then
      match rest with
      | c1 :: c2 :: r => (0x80 ≤ c1 ∧ c1 ≤ 0x9F) ∧ (0x80 ≤ c2 ∧ c2 ≤ 0xBF) ∧ utf8Valid r
      | _ => false
    else if b = 0xF0 then
      match rest with
      | c1 :: c2 :: c3 :: r =>
        (0x90 ≤ c1 ∧ c1 ≤ 0xBF) ∧ (0x80 ≤ c2 ∧ c2 ≤ 0xBF) ∧ (0x80 ≤ c3 ∧ c3 ≤ 0xBF) ∧
          utf8Valid r
      | _ => false
    else if 0xF1 ≤ b ∧ b ≤ 0xF3 then
      match rest with
      | c1 :: c2 :: c3 :: r =>
        (0x80 ≤ c1 ∧ c1 ≤ 0xBF) ∧ (0x80 ≤ c2 ∧ c2 ≤ 0xBF) ∧ (0x80 ≤ c3 ∧ c3 ≤ 0xBF) ∧
          utf8Valid r
      | _ => false
    else if b = 0xF4 then
      match rest with
      | c1 :: c2 :: c3 :: r =>
        (0x80 ≤ c1 ∧ c1 ≤ 0x8F) ∧ (0x80 ≤ c2 ∧ c2 ≤ 0xBF) ∧ (0x80 ≤ c3 ∧ c3 ≤ 0xBF) ∧
          utf8Valid r
      | _ => false
    else false

/-- Tail of `read_cstring` once `read_until` has produced `buf`: `pop` must
yield the NUL terminator, then UTF-8 validation (whose failure maps to
`ErrorKind::Other`). -/
def cstringFinish (r : BitRd) (buf : List Nat) : Res (List Nat × BitRd) :=
  match buf.getLast? with
  | some 0 =>
    if utf8Valid buf.dropLast then
      .ok (buf.dropLast, { r with input := r.input.drop buf.length })
    else .err .other
  | _ => .err .invalidData

/-- `read_cstring`: `read_until(0, ..)` through the `BitReader`'s `BufRead`
impl (hence the assertion) yields the bytes up to and including the first
NUL, or everything if none remains. -/
def readCString (r : BitRd) : Res (List Nat × BitRd) :=
  if r.bitsCount ≠ 0 then .panic .assertBits
  else
    match r.input.findIdx? (· = 0) with
    | some i => cstringFinish r (r.input.take (i + 1))
    | none => cstringFinish r r.input

/-- The `if fextra { ... }` block of `read_member_header` (FLG bit 2):
XLEN then `read_exact` of the payload, validated as UTF-8. -/
def readFExtra (flg : Nat) (r : BitRd) : Res BitRd :=
  if (flg / 4) % 2 = 1 then do
    let (xlen, r') ← readU16 r
    let (fextraBuf, r'') ← brReadExact r' xlen
    if utf8Valid fextraBuf then pure r'' else (.err .invalidData : Res BitRd)
  else pure r

/-- The `if fname { ... }` block of `read_member_header` (FLG bit 3). -/
def readFName (flg : Nat) (r : BitRd) : Res BitRd :=
  if (flg / 8) % 2 = 1 then do
    let (_fileName, r') ← readCString r
    pure r'
  else pure r

/-- The `if fcomment { ... }` block of `read_member_header` (FLG bit 4). -/
def readFComment (flg : Nat) (r : BitRd) : Res BitRd :=
  if (flg / 16) % 2 = 1 then do
    let (_comment, r') ← readCString r
    pure r'
  else pure r

/-- The `if fhcrc { ... }` block of `read_member_header` (FLG bit 1). -/
def readFHCrc (flg : Nat) (r : BitRd) : Res BitRd :=
  if (flg / 2) % 2 = 1 then do
    let (_crc16, r') ← brReadExact r 2
    pure r'
  else pure r

/-- `read_member_header`.  All byte reads after the initial `fill_buf` keep
the (empty) bit buffer untouched; `read_exact`/`read_until` for the optional
fields go through the asserting `Read`/`BufRead` impls. -/
def readMemberHeader (m : Machine) : Res Machine := do
  let buf0 ← brFillBuf m.br
  if buf0.isEmpty then .ok { m with st := .endOfFile }
  else do
    let (id1, r) ← readU8 m.br
    let (id2, r) ← readU8 r
    if ¬(id1 = 0x1f ∧ id2 = 0x8b) then .err .invalidData else do
    let (cm, r) ← readU8 r
    if cm ≠ 0x08 then .err .invalidData else do
    let (flg, r) ← readU8 r
    -- FLG bits: 0 = FTEXT (unused), 1 = FHCRC, 2 = FEXTRA, 3 = FNAME, 4 = FCOMMENT
    let (_mtime, r) ← readU32 r
    let (_xfl, r) ← readU8 r
    let (_os, r) ← readU8 r
    let r ← readFExtra flg r
    let r ← readFName flg r
    let r ← readFComment flg r
    let r ← readFHCrc flg r
    .ok { m with br := r, st := .blockHeader }

/-- `read_member_trailer`: discard partial bits, consume CRC32 and ISIZE
(no validation), return to `MemberHeader`. -/
def readMemberTrailer (m : Machine) : Res Machine := do
  let r := dropRemainingBits m.br
  let (_crc32, r) ← readU32 r
  let (_isize, r) ← readU32 r
  .ok { m with br := r, st := .memberHeader }

/-- `read_no_compression_block_header`: align to a byte, read LEN/NLEN,
check `!len == nlen` (`!` on `u16` is `65535 - len`). -/
def readNoCompressionBlockHeader (m : Machine) (isFinal : Bool) : Res Machine := do
  let r := dropRemainingBits m.br
  let (len, r) ← readU16 r
  let (nlen, r) ← readU16 r
  if (65535 - len) % 65536 ≠ nlen then .err .invalidData
  else .ok { m with br := r, st := .noCompressionBlock len isFinal }

/-- `read_no_compression_block`: copy `min(block_len, |buf|)` bytes from the
byte source (via the asserting `Read` impl) and mirror them into the
lookback buffer. -/
def readNoCompressionBlock (m : Machine) (cap blockLen : Nat) (isFinal : Bool) :
    Res (List Nat × Machine) := do
  let canRead := min blockLen cap
  let (bytes, r) ← brRead m.br canRead
  let lb ← writeData m.lb bytes
  let remainingLen := blockLen - bytes.length
  let st := if remainingLen = 0 then
      if isFinal then St.memberTrailer else .blockHeader
    else .noCompressionBlock remainingLen isFinal
  .ok (bytes, ⟨st, r, lb⟩)

/-- Fixed permutation of RFC 1951 §3.2.7 for the code-length alphabet. -/
def clenOrder : List Nat :=
  [16, 17, 18, 0, 8, 7, 9, 6, 10, 5, 11, 4, 12, 3, 13, 2, 14, 1, 15]

/-- Loop scattering `ncode` 3-bit values into `clen_lengths` at the indices
listed by `clen_order` (iterating over the first `ncode` indices). -/
def readClenGo : List Nat → List Nat → BitRd → Res (List Nat × BitRd)
  | [], lens, r => .ok (lens, r)
  | idx :: rest, lens, r => do
    let (v, r') ← readBitsExact r 3
    readClenGo rest (lens.set idx v) r'

/-- One run of `all_lengths[next_length_i] = repeat_length; next_length_i += 1`:
the source indexes the vector unconditionally, so running past its end is a
Rust index-out-of-bounds panic. -/
def writeRepeat : List Nat → Nat → Nat → Nat → Res (List Nat × Nat)
  | lens, i, _, 0 => .ok (lens, i)
  | lens, i, rl, c + 1 =>
    if lens.length ≤ i then .panic .indexOOB
    else writeRepeat (lens.set i rl) (i + 1) rl c

/-- The `while next_length_i < nlit + ndist` code-length decoding loop.
Every iteration either consumes at least one bit or fails, so the fuel only
bounds the iteration count. -/
def parseLensGo (tree : HTree) : Nat → BitRd → List Nat → Nat → Nat → Nat →
    Res (List Nat × BitRd)
  | 0, _, _, _, _, _ => .oof
  | fuel + 1, r, lens, nexti, total, prev =>
    if nexti < total then do
      let (clcO, r) ← decodeSym tree r
      match clcO with
      | none => .err .invalidData   -- "failed to decode clc"
      | some clc =>
        if clc ≤ 15 then
          if lens.length ≤ nexti then .panic .indexOOB
          else parseLensGo tree fuel r (lens.set nexti clc) (nexti + 1) total clc
        else if clc = 16 then do
          let (e, r) ← readBitsExact r 2
          let (lens', nexti') ← writeRepeat lens nexti prev (e + 3)
          parseLensGo tree fuel r lens' nexti' total prev
        else if clc = 17 then do
          let (e, r) ← readBitsExact r 3
          let (lens', nexti') ← writeRepeat lens nexti 0 (e + 3)
          parseLensGo tree fuel r lens' nexti' total 0
        else if clc = 18 then do
          let (e, r) ← readBitsExact r 7
          let (lens', nexti') ← writeRepeat lens nexti 0 (e + 11)
          parseLensGo tree fuel r lens' nexti' total 0
        else .err .invalidData      -- "unexpected length code"
    else .ok (lens, r)

/-- `read_dynamic_huffman_block_header`. -/
def readDynamicHuffmanBlockHeader (fuel : Nat) (m : Machine) (isFinal : Bool) :
    Res Machine := do
  let (nlit5, r) ← readBitsExact m.br 5
  let nlit := nlit5 + 257
  let (ndist5, r) ← readBitsExact r 5
  let ndist := ndist5 + 1
  let (ncode4, r) ← readBitsExact r 4
  let ncode := ncode4 + 4
  let (clenLengths, r) ← readClenGo (clenOrder.take ncode) (List.replicate 19 0) r
  let lengthsTree ← newFromLengths clenLengths
  let (allLengths, r) ←
    parseLensGo lengthsTree fuel r (List.replicate (nlit + ndist) 0) 0 (nlit + ndist) 0
  let litlenTree ← newFromLengths (allLengths.take nlit)
  let distanceTree ← newFromLengths (sliceL allLengths nlit ndist)
  .ok { m with br := r, st := .huffmanBlock litlenTree distanceTree isFinal }

/-- `read_fixed_huffman_block_header` is `todo!()`: a Rust panic. -/
def readFixedHuffmanBlockHeader (_m : Machine) : Res Machine :=
  .panic .todoUnimpl

/-- Size bases for length codes 257..285. -/
def lengthOffsets : List Nat :=
  [3, 4, 5, 6, 7, 8, 9, 10, 11, 13, 15, 17, 19, 23, 27]
    ++ [31, 35, 43, 51, 59, 67, 83, 99, 115, 131, 163, 195, 227, 258]

/-- Extra bits for length codes 257..285. -/
def lengthExtraBits : List Nat :=
  [0, 0, 0, 0, 0, 0, 0, 0, 1, 1, 1, 1, 2, 2, 2]
    ++ [2, 3, 3, 3, 3, 4, 4, 4, 4, 5, 5, 5, 5, 0]

/-- Offset bases for distance codes 0..29. -/
def distanceOffsets : List Nat :=
  [1, 2, 3, 4, 5, 7, 9, 13, 17, 25, 33, 49, 65, 97, 129]
    ++ [193, 257, 385, 513, 769, 1025, 1537, 2049, 3073, 4097, 6145, 8193, 12289, 16385, 24577]

/-- Extra bits for distance codes 0..29. -/
def distanceExtraBits : List Nat :=
  [0, 0, 0, 0, 1, 1, 2, 2, 3, 3, 4, 4, 5, 5, 6]
    ++ [6, 7, 7, 8, 8, 9, 9, 10, 10, 11, 11, 12, 12, 13, 13]

/-- Decode loop of `read_huffman_block` (`while pos < buf.len()`), carrying
the bytes emitted so far in `acc`.  A decoded symbol above 285 matches no
arm of the `if` chain, so the loop continues without consuming it further
(hence the fuel).  The length tables are only indexed with `litlen - 257 ≤ 28`
(guarded by `litlen ≤ 285`); the distance tables are indexed with an
unchecked code, a Rust panic when it exceeds 29. -/
def rhbGo (lt dt : HTree) (isFinal : Bool) : Nat → BitRd → LB → List Nat → Nat → Nat →
    Res (List Nat × St × BitRd × LB)
  | 0, _, _, _, _, _ => .oof
  | fuel + 1, r, lb, acc, pos, cap =>
    if pos < cap then do
      let (litlenO, r) ← decodeSym lt r
      match litlenO with
      | none => .err .invalidData   -- "failed to decode litlen"
      | some litlen =>
        if litlen < 256 then
          rhbGo lt dt isFinal fuel r (writeByte lb litlen) (acc ++ [litlen]) (pos + 1) cap
        else if litlen = 256 then
          .ok (acc, if isFinal then .memberTrailer else .blockHeader, r, lb)
        else if litlen ≤ 285 then do
          let (extraL, r) ← readBitsExact r (lengthExtraBits.getD (litlen - 257) 0)
          let matchLength := extraL + lengthOffsets.getD (litlen - 257) 0
          let (distCodeO, r) ← decodeSym dt r
          match distCodeO with
          | none => .err .invalidData   -- "failed to decode distance code"
          | some distCode =>
            if 30 ≤ distCode then .panic .indexOOB
            else do
              let (extraD, r) ← readBitsExact r (distanceExtraBits.getD distCode 0)
              let matchDistance := extraD + distanceOffsets.getD distCode 0
              .ok (acc, .huffmanBlockMatch lt dt matchLength matchDistance isFinal, r, lb)
        else
          rhbGo lt dt isFinal fuel r lb acc pos cap
    else .ok (acc, .huffmanBlock lt dt isFinal, r, lb)

/-- `read_huffman_block`. -/
def readHuffmanBlock (fuel : Nat) (m : Machine) (cap : Nat) (lt dt : HTree)
    (isFinal : Bool) : Res (List Nat × Machine) := do
  let (out, st, r, lb) ← rhbGo lt dt isFinal fuel m.br m.lb [] 0 cap
  .ok (out, ⟨st, r, lb⟩)

/-- `read_huffman_block_match`. -/
def readHuffmanBlockMatch (m : Machine) (cap : Nat) (lt dt : HTree)
    (length distance : Nat) (isFinal : Bool) : Res (List Nat × Machine) := do
  let readLength := min lookbackWindowSize (min cap (min length distance))
  let bytes ← readLookbackExact m.lb readLength distance
  let lb ← writeData m.lb bytes
  let st := if readLength = length then St.huffmanBlock lt dt isFinal
    else .huffmanBlockMatch lt dt (length - readLength) distance isFinal
  .ok (bytes, ⟨st, m.br, lb⟩)

/-- `read_block_header`: 1 bit BFINAL, 2 bits BTYPE, dispatch. -/
def readBlockHeader (fuel : Nat) (m : Machine) : Res Machine := do
  let (bfinal, r) ← readBitsExact m.br 1
  let (btype, r) ← readBitsExact r 2
  let isFinal := bfinal = 1
  let m := { m with br := r }
  if btype = 0 then readNoCompressionBlockHeader m isFinal
  else if btype = 1 then readFixedHuffmanBlockHeader m
  else if btype = 2 then readDynamicHuffmanBlockHeader fuel m isFinal
  else .err .invalidData   -- "unknown btype"

/-- Result of `read_impl`: on `Err` the source has already swapped
`BrokenStream` into `self.state` and never restored it, so the machine is
reported with its state `broken` (its reader and lookback buffer are in an
intermediate condition that no later call inspects: every read from a
`broken` machine fails with `InvalidInput` immediately, for any reader and
buffer contents). -/
inductive RRes where
  | ok (out : List Nat) (m : Machine)
  | err (e : Err) (m : Machine)
  | panic (p : Pan)
  | oof

/-- The `while total_read == 0` drive loop of `read_impl`.  Each iteration
swaps `BrokenStream` into the state and dispatches on the removed state;
handlers restore a state only on success.  The loop repeats while no byte
has been produced, so one fuel unit per iteration. -/
def readImpl : Nat → Machine → Nat → RRes
  | 0, _, _ => .oof
  | fuel + 1, m, cap =>
    match m.st with
    | .broken => .err .invalidInput { m with st := .broken }
    | .memberHeader =>
      match readMemberHeader { m with st := .broken } with
      | .ok m' => readImpl fuel m' cap
      | .err e => .err e { m with st := .broken }
      | .panic p => .panic p
      | .oof => .oof
    | .memberTrailer =>
      match readMemberTrailer { m with st := .broken } with
      | .ok m' => readImpl fuel m' cap
      | .err e => .err e { m with st := .broken }
      | .panic p => .panic p
      | .oof => .oof
    | .blockHeader =>
      match readBlockHeader fuel { m with st := .broken } with
      | .ok m' => readImpl fuel m' cap
      | .err e => .err e { m with st := .broken }
      | .panic p => .panic p
      | .oof => .oof
    | .noCompressionBlock len isFinal =>
      match readNoCompressionBlock { m with st := .broken } cap len isFinal with
      | .ok (out, m') => if out.isEmpty then readImpl fuel m' cap else .ok out m'
      | .err e => .err e { m with st := .broken }
      | .panic p => .panic p
      | .oof => .oof
    | .huffmanBlock lt dt isFinal =>
      match readHuffmanBlock fuel { m with st := .broken } cap lt dt isFinal with
      | .ok (out, m') => if out.isEmpty then readImpl fuel m' cap else .ok out m'
      | .err e => .err e { m with st := .broken }
      | .panic p => .panic p
      | .oof => .oof
    | .huffmanBlockMatch lt dt length distance isFinal =>
      match readHuffmanBlockMatch { m with st := .broken } cap lt dt length distance isFinal with
      | .ok (out, m') => if out.isEmpty then readImpl fuel m' cap else .ok out m'
      | .err e => .err e { m with st := .broken }
      | .panic p => .panic p
      | .oof => .oof
    | .endOfFile => .ok [] m

/-! ## Claim C6: literal/length symbol above 285 -/

/-- Length vector giving one-bit codes to symbols 256 and 286 (such a tree
is reachable: HLIT may announce up to 288 literal/length codes). -/
def lens286 : List Nat := ((List.replicate 287 0).set 256 1).set 286 1

/-! ## Claim C7: repeat code overrunning HLIT + HDIST -/

/-- Dynamic-Huffman header bitstream with HLIT=0, HDIST=0, HCLEN=0 (257+1
lengths expected) whose code-length symbols are 18 (138 zeros) followed by
18 (138 zeros): the second repeat overruns the 258-entry vector. -/
def in7 : List Nat := [0x05, 0x00, 0x90, 0xE0, 0xFF, 0x1F]

/-! ## Claim C9: end of input inside a stored block -/

/-- A gzip member header followed by a final stored block with LEN = 1 whose
data byte is missing: end of input inside `NoCompressionBlock`. -/
def gzTrunc : List Nat :=
  [0x1f, 0x8b, 0x08, 0, 0, 0, 0, 0, 0, 3, 0x01, 0x01, 0x00, 0xfe, 0xff]

/-- The machine the drive loop reaches after consuming the header and the
stored-block header of `gzTrunc`. -/
def mStuck : Machine :=
  ⟨.noCompressionBlock 1 true, ⟨[], 0, 0⟩, lbNew lookbackWindowSize⟩

/-! ## Claim C8: repeat-previous (symbol 16) before any literal length -/

/-- Dynamic-Huffman block whose very first code-length symbol is 16
(HLIT=0, HDIST=0, HCLEN=14; code-length alphabet gives 2-bit codes to
symbols 0, 1, 16, 18), followed by enough repeats to fill 258 lengths,
a length-1 code for symbol 256, an immediate end-of-block, and a member
trailer. -/
def in8 : List Nat :=
  [0x05, 0xC0, 0x05, 0x09, 0, 0, 0, 0, 0xA0, 0xF8, 0x3F, 0x5A, 0x00,
   0, 0, 0, 0, 0, 0, 0, 0]

/-- The code-length-alphabet length vector announced by `in8`. -/
def clen8 : List Nat :=
  ((((List.replicate 19 0).set 0 2).set 1 2).set 16 2).set 18 2

/-! ## Claim C4: errors poison the decoder -/

/-- A well-formed gzip member header followed by a block header byte `0x07`
(BFINAL = 1, BTYPE = 3). -/
def gzBad3 : List Nat := [0x1f, 0x8b, 0x08, 0, 0, 0, 0, 0, 0, 3, 0x07]

/-- The poisoned machine `read` leaves behind on `gzBad3` (state
`BrokenStream`; its reader is shown as of the start of the failing
iteration — no later call inspects it). -/
def mBad3 : Machine := ⟨.broken, ⟨[0x07], 0, 0⟩, lbNew lookbackWindowSize⟩

/-! ## Claim C10: the bit-buffer assertions never fire

The byte-level `Read`/`BufRead` impls of `BitReader` assert
`bits_count == 0`.  The decoder calls them (via `fill_buf`, `read`,
`read_exact`, `read_until`) only from the `MemberHeader` and
`NoCompressionBlock` handlers, and the state machine maintains the invariant
that the bit buffer is empty whenever one of those states is entered. -/

/-- States whose handler performs byte-level reads through the asserting
`Read`/`BufRead` impls. -/
def needsByteAlign : St → Bool
  | .memberHeader => true
  | .noCompressionBlock _ _ => true
  | _ => false

/-- The invariant: in `MemberHeader` and `NoCompressionBlock` the bit buffer
is empty. -/
def bitsInv (m : Machine) : Prop :=
  needsByteAlign m.st = true → m.br.bitsCount = 0

/-- A sequence of `read` calls (fuel and destination capacity for each);
`true` iff no call trips an `assert_eq!(bits_count, 0)`.  A run stops at a
different panic (the process aborts) or at fuel exhaustion. -/
def runF : List (Nat × Nat) → Machine → Bool
  | [], _ => true
  | (fuel, cap) :: rest, m =>
    match readImpl fuel m cap with
    | .ok _ m' => runF rest m'
    | .err _ m' => runF rest m'
    | .panic .assertBits => false
    | .panic _ => true
    | .oof => true

/-- Target property of a state-restoring handler: it never trips the
assertion, and a successful return satisfies the bit-buffer invariant. -/
@[reducible] def Hprop (x : Res Machine) : Prop :=
  x ≠ .panic .assertBits ∧ ∀ m', x = .ok m' → bitsInv m'

/-- Target property of the byte-yielding handlers. -/
@[reducible] def HpropO (x : Res (List Nat × Machine)) : Prop :=
  x ≠ .panic .assertBits ∧ ∀ out m', x = .ok (out, m') → bitsInv m'

/-- The three facts propagated through the drive loop: no assertion fires,
and the machine left behind by a successful or failing `read` satisfies the
bit-buffer invariant. -/
@[reducible] def RRprop (x : RRes) : Prop :=
  x ≠ .panic .assertBits ∧
  (∀ out m', x = .ok out m' → bitsInv m') ∧
  (∀ e m', x = .err e m' → bitsInv m')

/-! ## Claim C1: the LookbackBuffer stores the recent output history -/

/-- A write call on the lookback buffer (`write_byte` or `write_data`). -/
inductive WOp where
  | byte (b : Nat)
  | data (bs : List Nat)

def applyOp (lb : LB) : WOp → Res LB
  | .byte b => .ok (writeByte lb b)
  | .data bs => writeData lb bs

/-- Run a sequence of write calls. -/
def applyOps : LB → List WOp → Res LB
  | lb, [] => .ok lb
  | lb, op :: rest => Res.bind (applyOp lb op) (fun lb' => applyOps lb' rest)

/-- The output history produced by a sequence of write calls. -/
def histOf : List WOp → List Nat
  | [] => []
  | .byte b :: rest => b :: histOf rest
  | .data bs :: rest => bs ++ histOf rest

/-- Every `write_data` call respects the window bound (so none fails). -/
def opsOk : List WOp → Bool
  | [] => true
  | .byte _ :: rest => opsOk rest
  | .data bs :: rest => decide (bs.length ≤ lookbackWindowSize) && opsOk rest

/-- The ring-buffer invariant: the cursor equals the history length modulo
the window, and every history position still inside the window is stored at
its index modulo the window. -/
def lbInv (lb : LB) (hist : List Nat) : Prop :=
  lb.size = 32768 ∧
  lb.pos = hist.length % 32768 ∧
  ∀ p, p < hist.length → hist.length ≤ p + 32768 →
    lb.data (p % 32768) = hist.getD p 0

/-! ## Claim C2: HuffmanBlockMatch copies history chunks -/

/-- Iterate `read_huffman_block_match` (as the drive loop does, one chunk
per `read`) while the state remains a pending match, concatenating the
emitted bytes; stops when the state leaves `HuffmanBlockMatch`. -/
def matchRun : Nat → Machine → Nat → Res (List Nat × Machine)
  | 0, _, _ => .oof
  | fuel + 1, m, cap =>
    match m.st with
    | .huffmanBlockMatch lt dt len dist fin =>
      Res.bind (readHuffmanBlockMatch m cap lt dt len dist fin) (fun om =>
        Res.bind (matchRun fuel om.2 cap) (fun om2 => .ok (om.1 ++ om2.1, om2.2)))
    | _ => .ok ([], m)

/-- The lookback buffer after a single `write_byte 5` on a fresh buffer. -/
def lbC2 : LB := ⟨lookbackWindowSize, setF (fun _ => 0) 0 5, 1 % lookbackWindowSize⟩

@[simp] theorem Res.bind_ok {α β : Type} (a : α) (f : α → Res β) :
    Res.bind (Res.ok a) f = f a := rfl

@[simp] theorem Res.bind_err {α β : Type} (e : Err) (f : α → Res β) :
    Res.bind (Res.err e) f = Res.err e := rfl

@[simp] theorem Res.bind_panic {α β : Type} (p : Pan) (f : α → Res β) :
    Res.bind (Res.panic p) f = Res.panic p := rfl

@[simp] theorem Res.bind_oof {α β : Type} (f : α → Res β) :
    Res.bind (Res.oof : Res α) f = Res.oof := rfl

@[simp] theorem Res.bind_eq_bind {α β : Type} (x : Res α) (f : α → Res β) :
    x >>= f = Res.bind x f := rfl

@[simp] theorem Res.pure_eq_ok {α : Type} (a : α) : (pure a : Res α) = Res.ok a := rfl

/-! ## HuffmanTree (src/huffman.rs)

`HTree.nil` stands for the absent subtree (`Box<None>`); every tree actually
constructed is a `node`. -/

/-! ## Claim C3: the RFC 1951 §3.2.2 example tree -/

/-- C3: building a HuffmanTree from the code-length vector `[2,1,3,3]`
assigns to symbols 0,1,2,3 codewords of lengths 2,1,3,3 whose bit-reversed
(as-inserted) codes are `01`, `0`, `011`, `111` (the numerals named by the
claim; the pre-reversal canonical codes are `10`, `0`, `110`, `111`), and
decoding the corresponding LSB-first bit strings — fed through
`read_bits_exact(1)` exactly as `decode` consumes them — yields the symbols
0, 1, 2, 3. -/
theorem claim_C3 :
    assignCodes [2, 1, 3, 3] = [(0, 2, 2, 1), (1, 1, 0, 0), (2, 3, 6, 3), (3, 3, 7, 7)] ∧
    decodeBuilt [2, 1, 3, 3] ⟨[], 1, 2⟩ = .ok (some 0, ⟨[], 0, 0⟩) ∧
    decodeBuilt [2, 1, 3, 3] ⟨[], 0, 1⟩ = .ok (some 1, ⟨[], 0, 0⟩) ∧
    decodeBuilt [2, 1, 3, 3] ⟨[], 3, 3⟩ = .ok (some 2, ⟨[], 0, 0⟩) ∧
    decodeBuilt [2, 1, 3, 3] ⟨[], 7, 3⟩ = .ok (some 3, ⟨[], 0, 0⟩) := by
  decide

/-! ## Claim C5: BTYPE = 1 (fixed Huffman) -/

/-- C5 counterexample: on a well-formed gzip member header followed by a
block header with BFINAL=1, BTYPE=1 (byte `0x03`), `read` does not return an
`InvalidData` error — it hits the `todo!()` panic of
`read_fixed_huffman_block_header`. -/
theorem claim_C5_counterexample :
    readImpl 2 (initM [0x1f, 0x8b, 0x08, 0, 0, 0, 0, 0, 0, 3, 0x03]) 1 =
      .panic .todoUnimpl := by
  rfl

/-- C5 (amended): for every machine at a block-header boundary whose next
three bits parse as BFINAL = `bf` and BTYPE = 1, `read` panics
(`todo!()`, unimplemented fixed-Huffman) instead of returning an error. -/
theorem claim_C5 (fuel cap : Nat) (m : Machine) (r' r'' : BitRd) (bf : Nat)
    (hst : m.st = .blockHeader)
    (h1 : readBitsExact m.br 1 = .ok (bf, r'))
    (h2 : readBitsExact r' 2 = .ok (1, r'')) :
    readImpl (fuel + 1) m cap = .panic .todoUnimpl := by
  simp only [readImpl, hst, readBlockHeader, h1, Res.bind_eq_bind, Res.bind_ok, h2,
    readFixedHuffmanBlockHeader]
  norm_num

/-- Witness for C5 at the concrete input of the counterexample, entered at
the `BlockHeader` state. -/
theorem claim_C5_witness :
    readImpl 1 ⟨.blockHeader, ⟨[0x03], 0, 0⟩, lbNew 32768⟩ 1 = .panic .todoUnimpl :=
  claim_C5 0 1 ⟨.blockHeader, ⟨[0x03], 0, 0⟩, lbNew 32768⟩ ⟨[], 1, 7⟩ ⟨[], 0, 5⟩ 1
    rfl rfl rfl

/-! ## Claim C6: literal/length symbol above 285 -/

/-- C6 refutation: with a literal/length tree containing symbol 286, a
Huffman block whose bitstream decodes 286 and then 256 makes `read` return
successfully (the symbol 286 is silently skipped by the `if` chain, which
has no arm for symbols above 285), not fail with `InvalidData`.  The first
conjunct shows the tree decodes symbol 286 from the leading bit of the
input; the second runs `read` to a clean end of file with no error. -/
theorem claim_C6 :
    decodeSym (treeOf lens286) ⟨[1], 0, 0⟩ = .ok (some 286, ⟨[], 0, 7⟩) ∧
    readImpl 5 ⟨.huffmanBlock (treeOf lens286) (treeOf (List.replicate 30 0)) true,
        ⟨[1, 0, 0, 0, 0, 0, 0, 0, 0], 0, 0⟩, lbNew 32768⟩ 1 =
      .ok [] ⟨.endOfFile, ⟨[], 0, 0⟩, lbNew 32768⟩ := by
  constructor
  · rfl
  · rfl

/-! ## Claim C7: repeat code overrunning HLIT + HDIST -/

/-- C7 refutation: expanding a repeat code past the expected HLIT + HDIST
entries does not produce an `InvalidData` error: the source writes
`all_lengths[next_length_i]` unchecked inside the repeat loop, which is a
Rust index-out-of-bounds panic. -/
theorem claim_C7 :
    readImpl 5 ⟨.blockHeader, ⟨in7, 0, 0⟩, lbNew 32768⟩ 1 = .panic .indexOOB := by
  rfl

/-! ## Claim C9: end of input inside a stored block -/

/-- One iteration from `mStuck` makes no progress: `Read::read` returns 0
bytes at EOF with no error, the block still has 1 byte remaining, and the
loop repeats with an identical machine. -/
theorem readImpl_mStuck (fuel : Nat) :
    readImpl fuel mStuck 1 = .oof := by
  induction fuel with
  | zero => rfl
  | succ n ih => calc readImpl (n + 1) mStuck 1 = readImpl n mStuck 1 := rfl
                  _ = .oof := ih

/-- C9 refutation: on `gzTrunc`, end of input is reached inside a
`NoCompressionBlock` with 1 byte remaining, and `read` neither returns an
`UnexpectedEof` error nor terminates at all: for every amount of fuel the
drive loop is still running (the underlying `read` keeps returning 0 bytes
and the state keeps being restored unchanged). -/
theorem claim_C9 (fuel : Nat) :
    readImpl fuel (initM gzTrunc) 1 = .oof := by
  match fuel with
  | 0 => rfl
  | 1 => rfl
  | 2 => rfl
  | (n + 3) =>
    calc readImpl (n + 3) (initM gzTrunc) 1 = readImpl (n + 1) mStuck 1 := rfl
      _ = .oof := readImpl_mStuck (n + 1)

/-! ## Claim C8: repeat-previous (symbol 16) before any literal length -/

/-- C8 refutation: on `in8` the code-length tree decodes symbol 16 as the
very first symbol (first two conjuncts: the scattered lengths are `clen8`,
and decoding at the reader state right after them yields 16 before any
literal length was produced), yet `read` completes the whole member without
any error. -/
theorem claim_C8_counterexample :
    readClenGo (clenOrder.take 18) (List.replicate 19 0)
        ⟨[0x09, 0, 0, 0, 0, 0xA0, 0xF8, 0x3F, 0x5A, 0, 0, 0, 0, 0, 0, 0, 0, 0], 2, 7⟩ =
      .ok (clen8, ⟨[0xF8, 0x3F, 0x5A, 0, 0, 0, 0, 0, 0, 0, 0, 0], 1, 1⟩) ∧
    decodeSym (treeOf clen8) ⟨[0xF8, 0x3F, 0x5A, 0, 0, 0, 0, 0, 0, 0, 0, 0], 1, 1⟩ =
      .ok (some 16, ⟨[0x3F, 0x5A, 0, 0, 0, 0, 0, 0, 0, 0, 0], 124, 7⟩) ∧
    readImpl 10 ⟨.blockHeader, ⟨in8, 0, 0⟩, lbNew 32768⟩ 1 =
      .ok [] ⟨.endOfFile, ⟨[], 0, 0⟩, lbNew 32768⟩ := by
  refine ⟨rfl, rfl, rfl⟩

/-- `writeRepeat` succeeds (returning a vector of unchanged length) whenever
the run stays within the vector. -/
theorem writeRepeat_ok (c : Nat) (lens : List Nat) (i rl : Nat)
    (h : i + c ≤ lens.length) :
    ∃ lens', writeRepeat lens i rl c = .ok (lens', i + c) ∧
      lens'.length = lens.length := by
  induction c generalizing lens i with
  | zero => exact ⟨lens, rfl, rfl⟩
  | succ n ih =>
    have hi : ¬ lens.length ≤ i := by omega
    have hls : (lens.set i rl).length = lens.length := List.length_set lens i rl
    obtain ⟨lens', h1, h2⟩ := ih (lens.set i rl) (i + 1) (by rw [hls]; omega)
    refine ⟨lens', ?_, by rw [h2, hls]⟩
    have hn : i + (n + 1) = i + 1 + n := by omega
    rw [hn]
    simp only [writeRepeat, if_neg hi, h1]

/-- C8 (amended): decoding code-length symbol 16 before any literal code
length has been produced does not fail: `previous_length` starts at 0, so
the repeat emits `read_bits(2) + 3` zero lengths and the parse continues
(no error is produced at this step as long as the run fits in the expected
count). -/
theorem claim_C8 (fuel total e : Nat) (t : HTree) (r r1 r2 : BitRd) (lens : List Nat)
    (hdec : decodeSym t r = .ok (some 16, r1))
    (hext : readBitsExact r1 2 = .ok (e, r2))
    (hfit : 3 + e ≤ total) (hlen : lens.length = total) :
    ∃ lens', writeRepeat lens 0 0 (e + 3) = .ok (lens', e + 3) ∧
      parseLensGo t (fuel + 1) r lens 0 total 0 =
        parseLensGo t fuel r2 lens' (e + 3) total 0 := by
  obtain ⟨lens', h1, _h2⟩ := writeRepeat_ok (e + 3) lens 0 0 (by omega)
  rw [Nat.zero_add] at h1
  refine ⟨lens', h1, ?_⟩
  have htot : 0 < total := by omega
  simp only [parseLensGo, if_pos htot, hdec, Res.bind_eq_bind, Res.bind_ok, hext]
  norm_num [h1]

/-- Witness for C8 at the concrete reader state of the counterexample. -/
theorem claim_C8_witness :
    ∃ lens', writeRepeat (List.replicate 258 0) 0 0 (0 + 3) = .ok (lens', 0 + 3) ∧
      parseLensGo (treeOf clen8) 7
          ⟨[0xF8, 0x3F, 0x5A, 0, 0, 0, 0, 0, 0, 0, 0, 0], 1, 1⟩
          (List.replicate 258 0) 0 258 0 =
        parseLensGo (treeOf clen8) 6 ⟨[0x3F, 0x5A, 0, 0, 0, 0, 0, 0, 0, 0, 0], 31, 5⟩
          lens' (0 + 3) 258 0 :=
  claim_C8 6 258 0 (treeOf clen8)
    ⟨[0xF8, 0x3F, 0x5A, 0, 0, 0, 0, 0, 0, 0, 0, 0], 1, 1⟩
    ⟨[0x3F, 0x5A, 0, 0, 0, 0, 0, 0, 0, 0, 0], 124, 7⟩
    ⟨[0x3F, 0x5A, 0, 0, 0, 0, 0, 0, 0, 0, 0], 31, 5⟩
    (List.replicate 258 0) rfl rfl (by omega) (by decide)

/-! ## Claim C4: errors poison the decoder -/

/-- Any `read` call that returns an error leaves the state `BrokenStream`:
the drive loop swaps `BrokenStream` in before dispatching and only the
success paths restore a state. -/
theorem readImpl_err_broken (fuel : Nat) (m : Machine) (cap : Nat) (e : Err)
    (m' : Machine) (h : readImpl fuel m cap = .err e m') : m'.st = .broken := by
  induction fuel generalizing m e m' with
  | zero => exact absurd h (by simp [readImpl])
  | succ n ih =>
    unfold readImpl at h
    split at h
    · cases h; rfl
    · split at h
      · exact ih _ _ _ h
      · cases h; rfl
      · cases h
      · cases h
    · split at h
      · exact ih _ _ _ h
      · cases h; rfl
      · cases h
      · cases h
    · split at h
      · exact ih _ _ _ h
      · cases h; rfl
      · cases h
      · cases h
    · split at h
      · split at h
        · exact ih _ _ _ h
        · cases h
      · cases h; rfl
      · cases h
      · cases h
    · split at h
      · split at h
        · exact ih _ _ _ h
        · cases h
      · cases h; rfl
      · cases h
      · cases h
    · split at h
      · split at h
        · exact ih _ _ _ h
        · cases h
      · cases h; rfl
      · cases h
      · cases h
    · cases h

/-- C4: (i) every `read` that returns an error leaves the state
`BrokenStream`; (ii) every `read` from a `BrokenStream` machine fails with
`InvalidInput` and stays broken; (iii) concretely, on `gzBad3` — whose
DEFLATE block header has BTYPE = 3 — `read` fails with `InvalidData`
leaving the broken machine `mBad3`, and the next `read` fails with
`InvalidInput`. -/
theorem claim_C4 (fuel cap : Nat) (m m' : Machine) (e : Err) :
    (readImpl fuel m cap = .err e m' → m'.st = .broken) ∧
    (m.st = .broken → readImpl (fuel + 1) m cap = .err .invalidInput m) ∧
    (readImpl 2 (initM gzBad3) 1 = .err .invalidData mBad3 ∧
     mBad3.st = .broken ∧
     readImpl 1 mBad3 1 = .err .invalidInput mBad3) := by
  refine ⟨readImpl_err_broken fuel m cap e m', ?_, rfl, rfl, rfl⟩
  intro hst
  obtain ⟨st, br, lb⟩ := m
  simp only at hst
  subst hst
  rfl

/-- Witness for C4: the hypotheses of parts (i) and (ii) discharged at the
concrete broken machine produced by `gzBad3`. -/
theorem claim_C4_witness :
    mBad3.st = .broken ∧ readImpl 1 mBad3 1 = .err .invalidInput mBad3 :=
  ⟨(claim_C4 2 1 (initM gzBad3) mBad3 .invalidData).1 rfl,
   (claim_C4 0 1 mBad3 mBad3 .invalidData).2.1 rfl⟩

/-! ## Claim C10: the bit-buffer assertions never fire

The byte-level `Read`/`BufRead` impls of `BitReader` assert
`bits_count == 0`.  The decoder calls them (via `fill_buf`, `read`,
`read_exact`, `read_until`) only from the `MemberHeader` and
`NoCompressionBlock` handlers, and the state machine maintains the invariant
that the bit buffer is empty whenever one of those states is entered. -/

/-- `read_bits` never panics (its internal `fill_buf` happens only with an
empty bit buffer), and `rbeGo` only forwards its results. -/
theorem rbeGo_ne_panic (fuel : Nat) (r : BitRd) (n total out : Nat) (p : Pan) :
    rbeGo fuel r n total out ≠ .panic p := by
  induction fuel generalizing r total out with
  | zero => simp only [rbeGo]; split <;> simp
  | succ k ih =>
    simp only [rbeGo]
    split
    · split
      · simp
      · exact ih _ _ _
    · simp

theorem readBitsExact_ne_panic (r : BitRd) (n : Nat) (p : Pan) :
    readBitsExact r n ≠ .panic p :=
  rbeGo_ne_panic n r n 0 0 p

/-- `decode` can only panic on the impossible third bit value. -/
theorem decodeSym_panic (t : HTree) (r : BitRd) (p : Pan)
    (h : decodeSym t r = .panic p) : p = .badBit := by
  induction t generalizing r with
  | nil => simp [decodeSym] at h
  | node v z o ihz iho =>
    cases v with
    | some w => simp [decodeSym] at h
    | none =>
      simp only [decodeSym, Res.bind_eq_bind] at h
      cases hrb : readBitsExact r 1 with
      | ok a =>
        obtain ⟨bit, r'⟩ := a
        rw [hrb] at h
        simp only [Res.bind_ok] at h
        match bit, h with
        | 0, h => exact ihz _ h
        | 1, h => exact iho _ h
        | (k + 2), h => cases h; rfl
      | err e => rw [hrb] at h; cases h
      | panic q => exact absurd hrb (readBitsExact_ne_panic r 1 q)
      | oof => rw [hrb] at h; cases h

/-- `insert_impl` can only panic on a duplicate code assignment. -/
theorem insertImpl_panic (v : Nat) (len code : Nat) (t : HTree) (p : Pan)
    (h : insertImpl v len code t = .panic p) : p = .insertConflict := by
  induction len generalizing code t with
  | zero =>
    simp only [insertImpl] at h
    split at h
    · cases h; rfl
    · cases h
  | succ k ih =>
    simp only [insertImpl] at h
    split at h
    · cases h; rfl
    · split at h <;>
      · simp only [Res.bind_eq_bind] at h
        cases hz : insertImpl v k (code / 2) _ with
        | ok a => rw [hz] at h; cases h
        | err e => rw [hz] at h; cases h
        | panic q => rw [hz] at h; cases h; exact ih _ _ hz
        | oof => rw [hz] at h; cases h

/-- The tree-construction loop can only panic on a duplicate code. -/
theorem buildGo_panic (nc : List Nat) (t : HTree) (lengths : List Nat) (b : Nat)
    (p : Pan) (h : buildGo nc t lengths b = .panic p) : p = .insertConflict := by
  induction lengths generalizing nc t b with
  | nil => cases h
  | cons l rest ih =>
    simp only [buildGo] at h
    split at h
    · exact ih _ _ _ h
    · simp only [Res.bind_eq_bind] at h
      cases hz : insertImpl b l (reverseBits (nc.getD l 0) l) t with
      | ok a => rw [hz] at h; exact ih _ _ _ h
      | err e => rw [hz] at h; cases h
      | panic q => rw [hz] at h; cases h; exact insertImpl_panic _ _ _ _ _ hz
      | oof => rw [hz] at h; cases h

/-- `new_from_lengths` panics only on a duplicate code or an out-of-range
length, never on the bit-buffer assertion. -/
theorem newFromLengths_panic (lengths : List Nat) (p : Pan)
    (h : newFromLengths lengths = .panic p) :
    p = .insertConflict ∨ p = .indexOOB := by
  simp only [newFromLengths] at h
  split at h
  · cases h; right; rfl
  · left; exact buildGo_panic _ _ _ _ _ h

/-- The code-length scattering loop never panics. -/
theorem readClenGo_ne_panic (idxs lens : List Nat) (r : BitRd) (p : Pan) :
    readClenGo idxs lens r ≠ .panic p := by
  induction idxs generalizing lens r with
  | nil => simp [readClenGo]
  | cons i rest ih =>
    simp only [readClenGo, Res.bind_eq_bind]
    cases hrb : readBitsExact r 3 with
    | ok a => exact ih _ _
    | err e => simp
    | panic q => exact absurd hrb (readBitsExact_ne_panic r 3 q)
    | oof => simp

/-- The repeat-run writer panics only on an out-of-bounds index. -/
theorem writeRepeat_panic (c : Nat) (lens : List Nat) (i rl : Nat) (p : Pan)
    (h : writeRepeat lens i rl c = .panic p) : p = .indexOOB := by
  induction c generalizing lens i with
  | zero => cases h
  | succ k ih =>
    simp only [writeRepeat] at h
    split at h
    · cases h; rfl
    · exact ih _ _ h

/-- Auxiliary for the three repeat branches of the code-length loop:
reading extra bits, writing the run and continuing only panics as `decode`
and the vector indexing do. -/
theorem parseRepeatAux_panic (t : HTree) (k : Nat) (r1 : BitRd) (lens : List Nat)
    (nexti total rl add prev' nb : Nat) (p : Pan)
    (ih : ∀ (r : BitRd) (lens : List Nat) (nexti prev : Nat),
      parseLensGo t k r lens nexti total prev = .panic p → p = .badBit ∨ p = .indexOOB)
    (h : Res.bind (readBitsExact r1 nb) (fun d =>
          Res.bind (writeRepeat lens nexti rl (d.1 + add)) (fun d1 =>
            parseLensGo t k d.2 d1.1 d1.2 total prev')) = .panic p) :
    p = .badBit ∨ p = .indexOOB := by
  cases hrb : readBitsExact r1 nb with
  | ok a =>
    rw [hrb] at h
    simp only [Res.bind_ok] at h
    cases hw : writeRepeat lens nexti rl (a.1 + add) with
    | ok a1 => rw [hw] at h; simp only [Res.bind_ok] at h; exact ih _ _ _ _ h
    | err e => rw [hw] at h; cases h
    | panic q => rw [hw] at h; cases h; right; exact writeRepeat_panic _ _ _ _ _ hw
    | oof => rw [hw] at h; cases h
  | err e => rw [hrb] at h; cases h
  | panic q => exact absurd hrb (readBitsExact_ne_panic r1 nb q)
  | oof => rw [hrb] at h; cases h

/-- The code-length decoding loop never panics on the bit-buffer assertion
(its panics come from `decode` and the vector indexing). -/
theorem parseLensGo_panic (t : HTree) (fuel : Nat) (r : BitRd) (lens : List Nat)
    (nexti total prev : Nat) (p : Pan)
    (h : parseLensGo t fuel r lens nexti total prev = .panic p) :
    p = .badBit ∨ p = .indexOOB := by
  induction fuel generalizing r lens nexti prev with
  | zero => cases h
  | succ k ih =>
    simp only [parseLensGo] at h
    split at h
    · simp only [Res.bind_eq_bind] at h
      cases hd : decodeSym t r with
      | ok a =>
        obtain ⟨clcO, r1⟩ := a
        rw [hd] at h
        simp only [Res.bind_ok] at h
        cases clcO with
        | none => cases h
        | some clc =>
          simp only [Res.bind_eq_bind] at h
          split at h
          · split at h
            · cases h; right; rfl
            · exact ih _ _ _ _ h
          · split at h
            · exact parseRepeatAux_panic t k r1 lens nexti total prev 3 prev 2 p ih h
            · split at h
              · exact parseRepeatAux_panic t k r1 lens nexti total 0 3 0 3 p ih h
              · split at h
                · exact parseRepeatAux_panic t k r1 lens nexti total 0 11 0 7 p ih h
                · cases h
      | err e => rw [hd] at h; cases h
      | panic q => rw [hd] at h; cases h; left; exact decodeSym_panic _ _ _ hd
      | oof => rw [hd] at h; cases h
    · cases h

/-- Chaining computations that cannot trip the assertion cannot trip it. -/
theorem Res.bind_ne_assert {α β : Type} {x : Res α} {f : α → Res β}
    (hx : x ≠ .panic .assertBits) (hf : ∀ a, f a ≠ .panic .assertBits) :
    Res.bind x f ≠ .panic .assertBits := by
  cases x with
  | ok a => exact hf a
  | err e => simp [Res.bind]
  | panic p => simpa [Res.bind] using hx
  | oof => simp [Res.bind]

/-- Splitting a successful chained computation. -/
theorem Res.bind_ok_elim {α β : Type} {x : Res α} {f : α → Res β} {b : β}
    (h : Res.bind x f = .ok b) : ∃ a, x = .ok a ∧ f a = .ok b := by
  cases x with
  | ok a => exact ⟨a, rfl, h⟩
  | err e => cases h
  | panic p => cases h
  | oof => cases h

/-- `read_u8` through the inner reader: no panic; on success the bit buffer
is untouched. -/
theorem readU8_ne_panic (r : BitRd) (p : Pan) : readU8 r ≠ .panic p := by
  unfold readU8; split <;> simp

theorem readU8_ok (r : BitRd) (v : Nat) (r' : BitRd) (h : readU8 r = .ok (v, r')) :
    r'.bitsCount = r.bitsCount := by
  unfold readU8 at h
  split at h
  · cases h
  · cases h; rfl

theorem readU16_ne_panic (r : BitRd) (p : Pan) : readU16 r ≠ .panic p := by
  unfold readU16; split <;> simp

theorem readU16_ok (r : BitRd) (v : Nat) (r' : BitRd) (h : readU16 r = .ok (v, r')) :
    r'.bitsCount = r.bitsCount := by
  unfold readU16 at h
  split at h
  · cases h; rfl
  · cases h

theorem readU32_ne_panic (r : BitRd) (p : Pan) : readU32 r ≠ .panic p := by
  unfold readU32; split <;> simp

theorem readU32_ok (r : BitRd) (v : Nat) (r' : BitRd) (h : readU32 r = .ok (v, r')) :
    r'.bitsCount = r.bitsCount := by
  unfold readU32 at h
  split at h
  · cases h; rfl
  · cases h

/-- `read_exact` through the asserting impl: safe when the bit buffer is
empty, and it stays empty. -/
theorem brReadExact_ne_assert (r : BitRd) (n : Nat) (hb : r.bitsCount = 0) :
    brReadExact r n ≠ .panic .assertBits := by
  unfold brReadExact
  simp only [hb]
  norm_num
  split <;> simp

theorem brReadExact_ok (r : BitRd) (n : Nat) (bs : List Nat) (r' : BitRd)
    (h : brReadExact r n = .ok (bs, r')) : r'.bitsCount = r.bitsCount := by
  unfold brReadExact at h
  split at h
  · cases h
  · split at h
    · cases h
    · cases h; rfl

/-- `read_until` (in `read_cstring`): safe when the bit buffer is empty, and
it stays empty. -/
theorem cstringFinish_ne_panic (r : BitRd) (buf : List Nat) (p : Pan) :
    cstringFinish r buf ≠ .panic p := by
  unfold cstringFinish
  split
  · split <;> simp
  · simp

theorem cstringFinish_ok (r : BitRd) (buf bs : List Nat) (r' : BitRd)
    (h : cstringFinish r buf = .ok (bs, r')) : r'.bitsCount = r.bitsCount := by
  unfold cstringFinish at h
  split at h
  · split at h
    · cases h; rfl
    · cases h
  · cases h

theorem readCString_ne_assert (r : BitRd) (hb : r.bitsCount = 0) :
    readCString r ≠ .panic .assertBits := by
  unfold readCString
  simp only [hb]
  norm_num
  split <;> exact cstringFinish_ne_panic _ _ _

theorem readCString_ok (r : BitRd) (bs : List Nat) (r' : BitRd)
    (h : readCString r = .ok (bs, r')) : r'.bitsCount = r.bitsCount := by
  unfold readCString at h
  split at h
  · cases h
  · split at h <;> exact cstringFinish_ok _ _ _ _ h

theorem brRead_ne_assert (r : BitRd) (n : Nat) (hb : r.bitsCount = 0) :
    brRead r n ≠ .panic .assertBits := by
  unfold brRead
  simp [hb]

theorem brRead_ok (r : BitRd) (n : Nat) (bs : List Nat) (r' : BitRd)
    (h : brRead r n = .ok (bs, r')) : r'.bitsCount = r.bitsCount := by
  unfold brRead at h
  split at h
  · cases h
  · cases h; rfl

theorem brFillBuf_ne_assert (r : BitRd) (hb : r.bitsCount = 0) :
    brFillBuf r ≠ .panic .assertBits := by
  unfold brFillBuf
  simp [hb]

/-- `write_data` returns `Ok` or `Err`, never panics. -/
theorem writeData_ne_panic (b : LB) (buf : List Nat) (p : Pan) :
    writeData b buf ≠ .panic p := by
  unfold writeData; split <;> simp

/-- `read_lookback_exact` returns `Ok` or `Err`, never panics. -/
theorem readLookbackExact_ne_panic (b : LB) (dlen distance : Nat) (p : Pan) :
    readLookbackExact b dlen distance ≠ .panic p := by
  unfold readLookbackExact
  split
  · simp
  · split
    · simp
    · split <;> simp

theorem Res.bind_ne_assert' {α β : Type} {x : Res α} {f : α → Res β}
    (hx : x ≠ .panic .assertBits) (hf : ∀ a, x = .ok a → f a ≠ .panic .assertBits) :
    Res.bind x f ≠ .panic .assertBits := by
  cases x with
  | ok a => exact hf a rfl
  | err e => simp [Res.bind]
  | panic p => simpa [Res.bind] using hx
  | oof => simp [Res.bind]

theorem readFExtra_ne_assert (flg : Nat) (r : BitRd) (hc : r.bitsCount = 0) :
    readFExtra flg r ≠ .panic .assertBits := by
  unfold readFExtra
  split
  · refine Res.bind_ne_assert' (readU16_ne_panic _ _) (fun a ha => ?_)
    obtain ⟨xlen, r1⟩ := a
    have hc1 : r1.bitsCount = 0 := (readU16_ok _ _ _ ha).trans hc
    refine Res.bind_ne_assert' (brReadExact_ne_assert _ _ hc1) (fun b _ => ?_)
    dsimp only
    split <;> simp
  · simp

theorem readFExtra_ok (flg : Nat) (r r' : BitRd) (hc : r.bitsCount = 0)
    (h : readFExtra flg r = .ok r') : r'.bitsCount = 0 := by
  unfold readFExtra at h
  split at h
  · obtain ⟨a, ha, h2⟩ := Res.bind_ok_elim h
    obtain ⟨xlen, r1⟩ := a
    obtain ⟨b, hb, h3⟩ := Res.bind_ok_elim h2
    obtain ⟨bs, r2⟩ := b
    have hc1 : r1.bitsCount = 0 := (readU16_ok _ _ _ ha).trans hc
    have hc2 : r2.bitsCount = 0 := (brReadExact_ok _ _ _ _ hb).trans hc1
    dsimp only at h3
    split at h3
    · cases h3; exact hc2
    · cases h3
  · cases h; exact hc

theorem readFName_ne_assert (flg : Nat) (r : BitRd) (hc : r.bitsCount = 0) :
    readFName flg r ≠ .panic .assertBits := by
  unfold readFName
  split
  · exact Res.bind_ne_assert' (readCString_ne_assert _ hc) (fun a _ => by simp)
  · simp

theorem readFName_ok (flg : Nat) (r r' : BitRd) (hc : r.bitsCount = 0)
    (h : readFName flg r = .ok r') : r'.bitsCount = 0 := by
  unfold readFName at h
  split at h
  · obtain ⟨a, ha, h2⟩ := Res.bind_ok_elim h
    obtain ⟨bs, r1⟩ := a
    cases h2
    exact (readCString_ok _ _ _ ha).trans hc
  · cases h; exact hc

theorem readFComment_ne_assert (flg : Nat) (r : BitRd) (hc : r.bitsCount = 0) :
    readFComment flg r ≠ .panic .assertBits := by
  unfold readFComment
  split
  · exact Res.bind_ne_assert' (readCString_ne_assert _ hc) (fun a _ => by simp)
  · simp

theorem readFComment_ok (flg : Nat) (r r' : BitRd) (hc : r.bitsCount = 0)
    (h : readFComment flg r = .ok r') : r'.bitsCount = 0 := by
  unfold readFComment at h
  split at h
  · obtain ⟨a, ha, h2⟩ := Res.bind_ok_elim h
    obtain ⟨bs, r1⟩ := a
    cases h2
    exact (readCString_ok _ _ _ ha).trans hc
  · cases h; exact hc

theorem readFHCrc_ne_assert (flg : Nat) (r : BitRd) (hc : r.bitsCount = 0) :
    readFHCrc flg r ≠ .panic .assertBits := by
  unfold readFHCrc
  split
  · exact Res.bind_ne_assert' (brReadExact_ne_assert _ _ hc) (fun a _ => by simp)
  · simp

theorem readFHCrc_ok (flg : Nat) (r r' : BitRd) (hc : r.bitsCount = 0)
    (h : readFHCrc flg r = .ok r') : r'.bitsCount = 0 := by
  unfold readFHCrc at h
  split at h
  · obtain ⟨a, ha, h2⟩ := Res.bind_ok_elim h
    obtain ⟨bs, r1⟩ := a
    cases h2
    exact (brReadExact_ok _ _ _ _ ha).trans hc
  · cases h; exact hc

theorem Hprop_bind {α : Type} {x : Res α} {f : α → Res Machine}
    (hx : x ≠ .panic .assertBits) (hf : ∀ a, x = .ok a → Hprop (f a)) :
    Hprop (Res.bind x f) := by
  cases x with
  | ok a => exact hf a rfl
  | err e => exact ⟨by simp, fun m' h => by cases h⟩
  | panic p => refine ⟨by simpa using hx, fun m' h => by cases h⟩
  | oof => exact ⟨by simp, fun m' h => by cases h⟩

theorem Hprop_err (e : Err) : Hprop (.err e) :=
  ⟨by simp, fun m' h => by cases h⟩

theorem Hprop_panic {p : Pan} (h : p ≠ .assertBits) : Hprop (.panic p) :=
  ⟨by simpa using h, fun m' hm => by cases hm⟩

theorem Hprop_ok_align {m : Machine} (h : needsByteAlign m.st = false) : Hprop (.ok m) :=
  ⟨by simp, fun m' hm => by cases hm; intro hh; rw [h] at hh; cases hh⟩

theorem Hprop_ok_bits {m : Machine} (h : m.br.bitsCount = 0) : Hprop (.ok m) :=
  ⟨by simp, fun m' hm => by cases hm; intro _; exact h⟩

/-- `read_member_header` never trips the bit-buffer assertion when entered
with an empty bit buffer, and on success transitions to `EndOfFile` or
`BlockHeader` (neither of which needs byte alignment). -/
theorem readMemberHeader_props (m : Machine) (hb : m.br.bitsCount = 0) :
    Hprop (readMemberHeader m) := by
  unfold readMemberHeader
  refine Hprop_bind (brFillBuf_ne_assert _ hb) (fun buf0 _ => ?_)
  dsimp only
  split
  · exact Hprop_ok_align rfl
  · refine Hprop_bind (readU8_ne_panic _ _) (fun a1 ha1 => ?_)
    obtain ⟨id1, r1⟩ := a1
    dsimp only
    have hc1 : r1.bitsCount = 0 := (readU8_ok _ _ _ ha1).trans hb
    refine Hprop_bind (readU8_ne_panic _ _) (fun a2 ha2 => ?_)
    obtain ⟨id2, r2⟩ := a2
    dsimp only
    have hc2 : r2.bitsCount = 0 := (readU8_ok _ _ _ ha2).trans hc1
    split
    · exact Hprop_err _
    · refine Hprop_bind (readU8_ne_panic _ _) (fun a3 ha3 => ?_)
      obtain ⟨cm, r3⟩ := a3
      dsimp only
      have hc3 : r3.bitsCount = 0 := (readU8_ok _ _ _ ha3).trans hc2
      split
      · exact Hprop_err _
      · refine Hprop_bind (readU8_ne_panic _ _) (fun a4 ha4 => ?_)
        obtain ⟨flg, r4⟩ := a4
        dsimp only
        have hc4 : r4.bitsCount = 0 := (readU8_ok _ _ _ ha4).trans hc3
        refine Hprop_bind (readU32_ne_panic _ _) (fun a5 ha5 => ?_)
        obtain ⟨mt, r5⟩ := a5
        dsimp only
        have hc5 : r5.bitsCount = 0 := (readU32_ok _ _ _ ha5).trans hc4
        refine Hprop_bind (readU8_ne_panic _ _) (fun a6 ha6 => ?_)
        obtain ⟨xfl, r6⟩ := a6
        dsimp only
        have hc6 : r6.bitsCount = 0 := (readU8_ok _ _ _ ha6).trans hc5
        refine Hprop_bind (readU8_ne_panic _ _) (fun a7 ha7 => ?_)
        obtain ⟨os, r7⟩ := a7
        dsimp only
        have hc7 : r7.bitsCount = 0 := (readU8_ok _ _ _ ha7).trans hc6
        refine Hprop_bind (readFExtra_ne_assert _ _ hc7) (fun r8 hr8 => ?_)
        have hc8 : r8.bitsCount = 0 := readFExtra_ok _ _ _ hc7 hr8
        refine Hprop_bind (readFName_ne_assert _ _ hc8) (fun r9 hr9 => ?_)
        have hc9 : r9.bitsCount = 0 := readFName_ok _ _ _ hc8 hr9
        refine Hprop_bind (readFComment_ne_assert _ _ hc9) (fun r10 hr10 => ?_)
        have hc10 : r10.bitsCount = 0 := readFComment_ok _ _ _ hc9 hr10
        refine Hprop_bind (readFHCrc_ne_assert _ _ hc10) (fun r11 _ => ?_)
        exact Hprop_ok_align rfl

/-- The Huffman-block decode loop panics only via `decode` or the distance
tables, never on the bit-buffer assertion. -/
theorem rhbGo_panic (lt dt : HTree) (isFinal : Bool) (fuel : Nat) (r : BitRd)
    (lb : LB) (acc : List Nat) (pos cap : Nat) (p : Pan)
    (h : rhbGo lt dt isFinal fuel r lb acc pos cap = .panic p) :
    p = .badBit ∨ p = .indexOOB := by
  induction fuel generalizing r lb acc pos with
  | zero => cases h
  | succ k ih =>
    simp only [rhbGo] at h
    split at h
    · simp only [Res.bind_eq_bind] at h
      cases hd : decodeSym lt r with
      | ok a =>
        obtain ⟨litO, r1⟩ := a
        rw [hd] at h
        simp only [Res.bind_ok] at h
        cases litO with
        | none => cases h
        | some litlen =>
          dsimp only at h
          by_cases h1 : litlen < 256
          · rw [if_pos h1] at h
            exact ih _ _ _ _ h
          · rw [if_neg h1] at h
            by_cases h2 : litlen = 256
            · rw [if_pos h2] at h; cases h
            · rw [if_neg h2] at h
              by_cases h3 : litlen ≤ 285
              · rw [if_pos h3] at h
                try simp only [Res.bind_eq_bind] at h
                cases hrb : readBitsExact r1 (lengthExtraBits.getD (litlen - 257) 0) with
                | ok a2 =>
                  obtain ⟨eL, r2⟩ := a2
                  rw [hrb] at h
                  simp only [Res.bind_ok] at h
                  cases hdd : decodeSym dt r2 with
                  | ok a3 =>
                    obtain ⟨dcO, r3⟩ := a3
                    rw [hdd] at h
                    simp only [Res.bind_ok] at h
                    cases dcO with
                    | none => cases h
                    | some dc =>
                      dsimp only at h
                      by_cases h4 : 30 ≤ dc
                      · rw [if_pos h4] at h; cases h; right; rfl
                      · rw [if_neg h4] at h
                        try simp only [Res.bind_eq_bind] at h
                        cases hrb2 : readBitsExact r3 (distanceExtraBits.getD dc 0) with
                        | ok a4 => rw [hrb2] at h; cases h
                        | err e4 => rw [hrb2] at h; cases h
                        | panic q => exact absurd hrb2 (readBitsExact_ne_panic _ _ q)
                        | oof => rw [hrb2] at h; cases h
                  | err e3 => rw [hdd] at h; cases h
                  | panic q => rw [hdd] at h; cases h; left
                               exact decodeSym_panic _ _ _ hdd
                  | oof => rw [hdd] at h; cases h
                | err e2 => rw [hrb] at h; cases h
                | panic q => exact absurd hrb (readBitsExact_ne_panic _ _ q)
                | oof => rw [hrb] at h; cases h
              · rw [if_neg h3] at h
                exact ih _ _ _ _ h
      | err e => rw [hd] at h; cases h
      | panic q => rw [hd] at h; cases h; left; exact decodeSym_panic _ _ _ hd
      | oof => rw [hd] at h; cases h
    · cases h

/-- On success the decode loop leaves a state that needs no byte alignment
(`HuffmanBlock`, `HuffmanBlockMatch`, `MemberTrailer` or `BlockHeader`). -/
theorem rhbGo_ok (lt dt : HTree) (isFinal : Bool) (fuel : Nat) (r : BitRd)
    (lb : LB) (acc out : List Nat) (pos cap : Nat) (st' : St) (r' : BitRd) (lb' : LB)
    (h : rhbGo lt dt isFinal fuel r lb acc pos cap = .ok (out, st', r', lb')) :
    needsByteAlign st' = false := by
  induction fuel generalizing r lb acc pos with
  | zero => cases h
  | succ k ih =>
    simp only [rhbGo] at h
    split at h
    · simp only [Res.bind_eq_bind] at h
      cases hd : decodeSym lt r with
      | ok a =>
        obtain ⟨litO, r1⟩ := a
        rw [hd] at h
        simp only [Res.bind_ok] at h
        cases litO with
        | none => cases h
        | some litlen =>
          dsimp only at h
          by_cases h1 : litlen < 256
          · rw [if_pos h1] at h
            exact ih _ _ _ _ h
          · rw [if_neg h1] at h
            by_cases h2 : litlen = 256
            · rw [if_pos h2] at h
              cases h
              split <;> rfl
            · rw [if_neg h2] at h
              by_cases h3 : litlen ≤ 285
              · rw [if_pos h3] at h
                try simp only [Res.bind_eq_bind] at h
                cases hrb : readBitsExact r1 (lengthExtraBits.getD (litlen - 257) 0) with
                | ok a2 =>
                  obtain ⟨eL, r2⟩ := a2
                  rw [hrb] at h
                  simp only [Res.bind_ok] at h
                  cases hdd : decodeSym dt r2 with
                  | ok a3 =>
                    obtain ⟨dcO, r3⟩ := a3
                    rw [hdd] at h
                    simp only [Res.bind_ok] at h
                    cases dcO with
                    | none => cases h
                    | some dc =>
                      dsimp only at h
                      by_cases h4 : 30 ≤ dc
                      · rw [if_pos h4] at h; cases h
                      · rw [if_neg h4] at h
                        try simp only [Res.bind_eq_bind] at h
                        cases hrb2 : readBitsExact r3 (distanceExtraBits.getD dc 0) with
                        | ok a4 =>
                          obtain ⟨eD, r4⟩ := a4
                          rw [hrb2] at h
                          simp only [Res.bind_ok] at h
                          cases h
                          rfl
                        | err e4 => rw [hrb2] at h; cases h
                        | panic q => exact absurd hrb2 (readBitsExact_ne_panic _ _ q)
                        | oof => rw [hrb2] at h; cases h
                  | err e3 => rw [hdd] at h; cases h
                  | panic q => rw [hdd] at h; cases h
                  | oof => rw [hdd] at h; cases h
                | err e2 => rw [hrb] at h; cases h
                | panic q => exact absurd hrb (readBitsExact_ne_panic _ _ q)
                | oof => rw [hrb] at h; cases h
              · rw [if_neg h3] at h
                exact ih _ _ _ _ h
      | err e => rw [hd] at h; cases h
      | panic q => rw [hd] at h; cases h
      | oof => rw [hd] at h; cases h
    · cases h
      rfl

theorem newFromLengths_ne_assert (lengths : List Nat) :
    newFromLengths lengths ≠ .panic .assertBits := by
  intro h
  rcases newFromLengths_panic _ _ h with h1 | h1 <;> cases h1

theorem parseLensGo_ne_assert (t : HTree) (fuel : Nat) (r : BitRd) (lens : List Nat)
    (nexti total prev : Nat) :
    parseLensGo t fuel r lens nexti total prev ≠ .panic .assertBits := by
  intro h
  rcases parseLensGo_panic _ _ _ _ _ _ _ _ h with h1 | h1 <;> cases h1

theorem rhbGo_ne_assert (lt dt : HTree) (isFinal : Bool) (fuel : Nat) (r : BitRd)
    (lb : LB) (acc : List Nat) (pos cap : Nat) :
    rhbGo lt dt isFinal fuel r lb acc pos cap ≠ .panic .assertBits := by
  intro h
  rcases rhbGo_panic _ _ _ _ _ _ _ _ _ _ h with h1 | h1 <;> cases h1

/-- `read_member_trailer` byte-aligns first, so it never trips the assertion
and returns to `MemberHeader` with an empty bit buffer. -/
theorem readMemberTrailer_props (m : Machine) : Hprop (readMemberTrailer m) := by
  unfold readMemberTrailer
  refine Hprop_bind (readU32_ne_panic _ _) (fun a1 ha1 => ?_)
  obtain ⟨c32, r1⟩ := a1
  dsimp only
  have hc1 : r1.bitsCount = 0 := (readU32_ok _ _ _ ha1).trans rfl
  refine Hprop_bind (readU32_ne_panic _ _) (fun a2 ha2 => ?_)
  obtain ⟨i32, r2⟩ := a2
  dsimp only
  exact Hprop_ok_bits ((readU32_ok _ _ _ ha2).trans hc1)

/-- The stored-block header byte-aligns first and enters
`NoCompressionBlock` with an empty bit buffer. -/
theorem readNoCompressionBlockHeader_props (m : Machine) (isFinal : Bool) :
    Hprop (readNoCompressionBlockHeader m isFinal) := by
  unfold readNoCompressionBlockHeader
  refine Hprop_bind (readU16_ne_panic _ _) (fun a1 ha1 => ?_)
  obtain ⟨len, r1⟩ := a1
  dsimp only
  have hc1 : r1.bitsCount = 0 := (readU16_ok _ _ _ ha1).trans rfl
  refine Hprop_bind (readU16_ne_panic _ _) (fun a2 ha2 => ?_)
  obtain ⟨nlen, r2⟩ := a2
  dsimp only
  split
  · exact Hprop_err _
  · exact Hprop_ok_bits ((readU16_ok _ _ _ ha2).trans hc1)

/-- The dynamic-Huffman header only consumes bits and builds trees; it never
touches the byte-level impls and lands in `HuffmanBlock`. -/
theorem readDynamicHuffmanBlockHeader_props (fuel : Nat) (m : Machine)
    (isFinal : Bool) : Hprop (readDynamicHuffmanBlockHeader fuel m isFinal) := by
  unfold readDynamicHuffmanBlockHeader
  refine Hprop_bind (readBitsExact_ne_panic _ _ _) (fun a1 _ => ?_)
  obtain ⟨nlit5, r1⟩ := a1
  dsimp only
  refine Hprop_bind (readBitsExact_ne_panic _ _ _) (fun a2 _ => ?_)
  obtain ⟨ndist5, r2⟩ := a2
  dsimp only
  refine Hprop_bind (readBitsExact_ne_panic _ _ _) (fun a3 _ => ?_)
  obtain ⟨ncode4, r3⟩ := a3
  dsimp only
  refine Hprop_bind (readClenGo_ne_panic _ _ _ _) (fun a4 _ => ?_)
  obtain ⟨clens, r4⟩ := a4
  dsimp only
  refine Hprop_bind (newFromLengths_ne_assert _) (fun t1 _ => ?_)
  refine Hprop_bind (parseLensGo_ne_assert _ _ _ _ _ _ _) (fun a5 _ => ?_)
  obtain ⟨alllens, r5⟩ := a5
  dsimp only
  refine Hprop_bind (newFromLengths_ne_assert _) (fun t2 _ => ?_)
  refine Hprop_bind (newFromLengths_ne_assert _) (fun t3 _ => ?_)
  exact Hprop_ok_align rfl

/-- `read_block_header` dispatch: every arm is assertion-free and restores a
state satisfying the invariant. -/
theorem readBlockHeader_props (fuel : Nat) (m : Machine) :
    Hprop (readBlockHeader fuel m) := by
  unfold readBlockHeader
  refine Hprop_bind (readBitsExact_ne_panic _ _ _) (fun a1 _ => ?_)
  obtain ⟨bf, r1⟩ := a1
  dsimp only
  refine Hprop_bind (readBitsExact_ne_panic _ _ _) (fun a2 _ => ?_)
  obtain ⟨bt, r2⟩ := a2
  dsimp only
  split
  · exact readNoCompressionBlockHeader_props _ _
  · split
    · exact Hprop_panic (by intro h; cases h)
    · split
      · exact readDynamicHuffmanBlockHeader_props _ _ _
      · exact Hprop_err _

theorem HpropO_bind {α : Type} {x : Res α} {f : α → Res (List Nat × Machine)}
    (hx : x ≠ .panic .assertBits) (hf : ∀ a, x = .ok a → HpropO (f a)) :
    HpropO (Res.bind x f) := by
  cases x with
  | ok a => exact hf a rfl
  | err e => exact ⟨by simp, fun out m' h => by cases h⟩
  | panic p => refine ⟨by simpa using hx, fun out m' h => by cases h⟩
  | oof => exact ⟨by simp, fun out m' h => by cases h⟩

theorem HpropO_ok_align {out : List Nat} {m : Machine}
    (h : needsByteAlign m.st = false) : HpropO (.ok (out, m)) :=
  ⟨by simp, fun o' m' hm => by cases hm; intro hh; rw [h] at hh; cases hh⟩

theorem HpropO_ok_bits {out : List Nat} {m : Machine}
    (h : m.br.bitsCount = 0) : HpropO (.ok (out, m)) :=
  ⟨by simp, fun o' m' hm => by cases hm; intro _; exact h⟩

/-- The stored-block copier reads bytes with an empty bit buffer and leaves
it empty. -/
theorem readNoCompressionBlock_props (m : Machine) (cap blockLen : Nat)
    (isFinal : Bool) (hb : m.br.bitsCount = 0) :
    HpropO (readNoCompressionBlock m cap blockLen isFinal) := by
  unfold readNoCompressionBlock
  refine HpropO_bind (brRead_ne_assert _ _ hb) (fun a1 ha1 => ?_)
  obtain ⟨bytes, r1⟩ := a1
  dsimp only
  have hc1 : r1.bitsCount = 0 := (brRead_ok _ _ _ _ ha1).trans hb
  refine HpropO_bind (writeData_ne_panic _ _ _) (fun lb1 _ => ?_)
  exact HpropO_ok_bits hc1

theorem readHuffmanBlock_props (fuel : Nat) (m : Machine) (cap : Nat)
    (lt dt : HTree) (isFinal : Bool) :
    HpropO (readHuffmanBlock fuel m cap lt dt isFinal) := by
  unfold readHuffmanBlock
  refine HpropO_bind (rhbGo_ne_assert _ _ _ _ _ _ _ _ _) (fun a ha => ?_)
  obtain ⟨out, st', r', lb'⟩ := a
  dsimp only
  exact HpropO_ok_align (rhbGo_ok _ _ _ _ _ _ _ _ _ _ _ _ _ ha)

theorem readHuffmanBlockMatch_props (m : Machine) (cap : Nat) (lt dt : HTree)
    (length distance : Nat) (isFinal : Bool) :
    HpropO (readHuffmanBlockMatch m cap lt dt length distance isFinal) := by
  unfold readHuffmanBlockMatch
  refine HpropO_bind (readLookbackExact_ne_panic _ _ _ _) (fun bytes _ => ?_)
  refine HpropO_bind (writeData_ne_panic _ _ _) (fun lb1 _ => ?_)
  dsimp only
  exact HpropO_ok_align (by split <;> rfl)

theorem RRprop_mk {x : RRes} (h1 : x ≠ .panic .assertBits)
    (h2 : ∀ out m', x = .ok out m' → bitsInv m')
    (h3 : ∀ e m', x = .err e m' → bitsInv m') : RRprop x :=
  And.intro h1 (And.intro h2 h3)

/-- Broken machines trivially satisfy the invariant. -/
theorem bitsInv_broken (m : Machine) : bitsInv { m with st := St.broken } := by
  intro h
  cases h

theorem RRprop_errB (e : Err) (m : Machine) :
    RRprop (RRes.err e { m with st := St.broken }) :=
  RRprop_mk (by simp) (fun out m' h => by cases h)
    (fun e' m' h => by cases h; exact bitsInv_broken _)

theorem RRprop_oof : RRprop RRes.oof :=
  RRprop_mk (by simp) (fun _ _ h => by cases h) (fun _ _ h => by cases h)

theorem RRprop_panic_of {p : Pan} (h : ¬ p = Pan.assertBits) : RRprop (RRes.panic p) :=
  RRprop_mk (by simpa using h) (fun _ _ hh => by cases hh) (fun _ _ hh => by cases hh)

theorem RRprop_ok_of {out : List Nat} {m : Machine} (h : bitsInv m) :
    RRprop (RRes.ok out m) :=
  RRprop_mk (by simp) (fun o m' hh => by cases hh; exact h) (fun _ _ hh => by cases hh)

/-- The drive loop preserves the invariant and never trips the assertion. -/
theorem readImpl_inv (fuel : Nat) (m : Machine) (cap : Nat) (hm : bitsInv m) :
    RRprop (readImpl fuel m cap) := by
  induction fuel generalizing m with
  | zero =>
    exact RRprop_mk (by simp [readImpl]) (fun out m' h => by cases h)
      (fun e m' h => by cases h)
  | succ n ih =>
    obtain ⟨st, br, lb⟩ := m
    cases st with
    | broken =>
      exact RRprop_mk (by simp [readImpl]) (fun out m' h => by cases h)
        (fun e m' h => by cases h; exact bitsInv_broken _)
    | memberHeader =>
      have hb : br.bitsCount = 0 := hm rfl
      have hp := readMemberHeader_props ⟨.broken, br, lb⟩ hb
      simp only [readImpl]
      cases hh : readMemberHeader ⟨.broken, br, lb⟩ with
      | ok m' => exact ih m' (hp.2 m' hh)
      | err e => dsimp only; exact RRprop_errB e ⟨.broken, br, lb⟩
      | panic p => exact RRprop_panic_of (fun hq => hp.1 (hq ▸ hh))
      | oof => exact RRprop_oof
    | memberTrailer =>
      have hp := readMemberTrailer_props ⟨.broken, br, lb⟩
      simp only [readImpl]
      cases hh : readMemberTrailer ⟨.broken, br, lb⟩ with
      | ok m' => exact ih m' (hp.2 m' hh)
      | err e => dsimp only; exact RRprop_errB e ⟨.broken, br, lb⟩
      | panic p => exact RRprop_panic_of (fun hq => hp.1 (hq ▸ hh))
      | oof => exact RRprop_oof
    | blockHeader =>
      have hp := readBlockHeader_props n ⟨.broken, br, lb⟩
      simp only [readImpl]
      cases hh : readBlockHeader n ⟨.broken, br, lb⟩ with
      | ok m' => exact ih m' (hp.2 m' hh)
      | err e => dsimp only; exact RRprop_errB e ⟨.broken, br, lb⟩
      | panic p => exact RRprop_panic_of (fun hq => hp.1 (hq ▸ hh))
      | oof => exact RRprop_oof
    | noCompressionBlock len isFinal =>
      have hb : br.bitsCount = 0 := hm rfl
      have hp := readNoCompressionBlock_props ⟨.broken, br, lb⟩ cap len isFinal hb
      simp only [readImpl]
      cases hh : readNoCompressionBlock ⟨.broken, br, lb⟩ cap len isFinal with
      | ok a =>
        obtain ⟨out, m'⟩ := a
        dsimp only
        split
        · exact ih m' (hp.2 out m' hh)
        · exact RRprop_ok_of (hp.2 out m' hh)
      | err e => dsimp only; exact RRprop_errB e ⟨.broken, br, lb⟩
      | panic p => exact RRprop_panic_of (fun hq => hp.1 (hq ▸ hh))
      | oof => exact RRprop_oof
    | huffmanBlock lt dt isFinal =>
      have hp := readHuffmanBlock_props n ⟨.broken, br, lb⟩ cap lt dt isFinal
      simp only [readImpl]
      cases hh : readHuffmanBlock n ⟨.broken, br, lb⟩ cap lt dt isFinal with
      | ok a =>
        obtain ⟨out, m'⟩ := a
        dsimp only
        split
        · exact ih m' (hp.2 out m' hh)
        · exact RRprop_ok_of (hp.2 out m' hh)
      | err e => dsimp only; exact RRprop_errB e ⟨.broken, br, lb⟩
      | panic p => exact RRprop_panic_of (fun hq => hp.1 (hq ▸ hh))
      | oof => exact RRprop_oof
    | huffmanBlockMatch lt dt length distance isFinal =>
      have hp := readHuffmanBlockMatch_props ⟨.broken, br, lb⟩ cap lt dt length distance isFinal
      simp only [readImpl]
      cases hh : readHuffmanBlockMatch ⟨.broken, br, lb⟩ cap lt dt length distance isFinal with
      | ok a =>
        obtain ⟨out, m'⟩ := a
        dsimp only
        split
        · exact ih m' (hp.2 out m' hh)
        · exact RRprop_ok_of (hp.2 out m' hh)
      | err e => dsimp only; exact RRprop_errB e ⟨.broken, br, lb⟩
      | panic p => exact RRprop_panic_of (fun hq => hp.1 (hq ▸ hh))
      | oof => exact RRprop_oof
    | endOfFile =>
      exact RRprop_mk (by simp [readImpl]) (fun out m' h => by cases h; exact hm)
        (fun e m' h => by cases h)

/-- C10: for every input stream and every sequence of `read` calls (of any
fuels and destination capacities), no call ever trips the
`assert_eq!(self.bits_count, 0)` assertions of `BitReader`'s `Read`/`BufRead`
impls: whenever the state machine performs a byte-level `fill_buf`/`read`
(peeking for EOF in `MemberHeader`, copying stored-block bytes, reading the
optional header fields and the trailer), the bit buffer is empty. -/
theorem claim_C10 (input : List Nat) (reads : List (Nat × Nat)) :
    runF reads (initM input) = true := by
  have main : ∀ (rs : List (Nat × Nat)) (ms : Machine), bitsInv ms → runF rs ms = true := by
    intro rs
    induction rs with
    | nil => intro ms _; rfl
    | cons rc rest ih =>
      intro ms hms
      obtain ⟨fuel, cap⟩ := rc
      obtain ⟨hne, hok, herr⟩ := readImpl_inv fuel ms cap hms
      simp only [runF]
      cases hh : readImpl fuel ms cap with
      | ok out m' => exact ih _ (hok _ _ hh)
      | err e m' => exact ih _ (herr _ _ hh)
      | panic p =>
        cases p with
        | assertBits => exact absurd hh hne
        | todoUnimpl => rfl
        | indexOOB => rfl
        | insertConflict => rfl
        | badBit => rfl
      | oof => rfl
  exact main reads (initM input) (fun _ => rfl)

/-! ## Claim C1: the LookbackBuffer stores the recent output history -/

theorem lbInv_init : lbInv (lbNew lookbackWindowSize) [] := by
  refine ⟨by norm_num [lbNew, lookbackWindowSize], by norm_num [lbNew], ?_⟩
  intro p hp _
  cases hp

/-- Pointwise description of `overwriteF`. -/
theorem overwriteF_at (s : List Nat) (f : Nat → Nat) (i j : Nat) :
    overwriteF f i s j =
      if i ≤ j ∧ j < i + s.length then s.getD (j - i) 0 else f j := by
  induction s generalizing f i with
  | nil =>
    simp only [overwriteF, List.length_nil]
    rw [if_neg (by omega)]
  | cons x s ih =>
    simp only [overwriteF, List.length_cons]
    rw [ih]
    by_cases hij : j = i
    · subst hij
      rw [if_neg (by omega), if_pos (by omega)]
      simp [setF]
    · by_cases hin : i + 1 ≤ j ∧ j < i + 1 + s.length
      · rw [if_pos hin, if_pos (by omega)]
        have : j - i = (j - (i + 1)) + 1 := by omega
        rw [this, List.getD_cons_succ]
      · rw [if_neg hin, if_neg (by omega)]
        simp [setF, hij]

theorem mod_ne_helper (p w : Nat) (h1 : p < w) (h2 : w < p + 32768) :
    p % 32768 ≠ w % 32768 := by
  intro hq
  have hd : 32768 ∣ w - p := (Nat.modEq_iff_dvd' h1.le).mp hq
  have := Nat.le_of_dvd (by omega) hd
  omega

theorem getD_append_left (l1 l2 : List Nat) (i : Nat) (h : i < l1.length) :
    (l1 ++ l2).getD i 0 = l1.getD i 0 := by
  induction l1 generalizing i with
  | nil => cases h
  | cons x l ih =>
    cases i with
    | zero => rfl
    | succ k =>
      simp only [List.cons_append, List.getD_cons_succ]
      exact ih k (by simpa using h)

theorem getD_append_right (l1 l2 : List Nat) (i : Nat) (h : l1.length ≤ i) :
    (l1 ++ l2).getD i 0 = l2.getD (i - l1.length) 0 := by
  induction l1 generalizing i with
  | nil => simp
  | cons x l ih =>
    cases i with
    | zero => cases h
    | succ k =>
      simp only [List.cons_append, List.getD_cons_succ, List.length_cons]
      rw [ih k (by simpa using h)]
      congr 1
      omega

theorem getD_take (l : List Nat) (n i : Nat) (h : i < n) :
    (l.take n).getD i 0 = l.getD i 0 := by
  induction l generalizing n i with
  | nil => simp
  | cons x l ih =>
    cases n with
    | zero => cases h
    | succ m =>
      cases i with
      | zero => rfl
      | succ k =>
        simp only [List.take_succ_cons, List.getD_cons_succ]
        exact ih m k (by omega)

theorem getD_drop (l : List Nat) (n i : Nat) :
    (l.drop n).getD i 0 = l.getD (n + i) 0 := by
  induction l generalizing n with
  | nil => simp
  | cons x l ih =>
    cases n with
    | zero => simp
    | succ m =>
      simp only [List.drop_succ_cons]
      rw [ih m]
      have : m + 1 + i = (m + i) + 1 := by omega
      rw [this, List.getD_cons_succ]

/-- `write_byte` extends the stored history by one byte. -/
theorem lbInv_writeByte (lb : LB) (hist : List Nat) (b : Nat) (h : lbInv lb hist) :
    lbInv (writeByte lb b) (hist ++ [b]) := by
  obtain ⟨hsz, hpos, hdat⟩ := h
  refine ⟨hsz, ?_, ?_⟩
  · simp only [writeByte, hsz, hpos, List.length_append, List.length_cons,
      List.length_nil]
    omega
  · intro p hp hw
    simp only [List.length_append, List.length_cons, List.length_nil] at hp hw
    simp only [writeByte, setF, hpos, hsz]
    by_cases hpW : p = hist.length
    · subst hpW
      rw [if_pos rfl, getD_append_right _ _ _ (le_refl _)]
      simp
    · have hplt : p < hist.length := by omega
      rw [if_neg (mod_ne_helper p hist.length hplt (by omega)),
        getD_append_left _ _ _ hplt]
      exact hdat p hplt (by omega)

/-- `write_data` succeeds within the window bound and extends the stored
history by the written block. -/
theorem lbInv_writeData (lb : LB) (hist : List Nat) (bs : List Nat) (h : lbInv lb hist)
    (hlen : bs.length ≤ 32768) :
    ∃ lb', writeData lb bs = .ok lb' ∧ lbInv lb' (hist ++ bs) := by
  obtain ⟨hsz, hpos, hdat⟩ := h
  have hng : ¬ bs.length > lb.size := by omega
  refine ⟨_, by rw [writeData, if_neg hng], ?_, ?_, ?_⟩
  · exact hsz
  · simp only [hsz, hpos, List.length_append]
    omega
  · intro p hp hw
    simp only [List.length_append] at hp hw
    have hq : p % 32768 < 32768 := Nat.mod_lt _ (by omega)
    by_cases hbr : bs.length ≤ lb.size - lb.pos
    · -- no wraparound
      rw [if_pos hbr]
      dsimp only
      rw [overwriteF_at]
      by_cases hpW : hist.length ≤ p
      · have hk : p - hist.length < bs.length := by omega
        have hqe : p % 32768 = lb.pos + (p - hist.length) := by
          rw [hpos]
          omega
        rw [if_pos (by omega), getD_append_right _ _ _ hpW]
        congr 1
        omega
      · push_neg at hpW
        rw [if_neg ?_, getD_append_left _ _ _ hpW]
        · exact hdat p hpW (by omega)
        · rintro ⟨hge, hlt⟩
          have hk : (p % 32768) - lb.pos < bs.length := by omega
          refine mod_ne_helper p (hist.length + ((p % 32768) - lb.pos))
            (by omega) (by omega) ?_
          rw [hpos] at hge hlt ⊢
          omega
    · -- wraparound
      rw [if_neg hbr]
      dsimp only
      rw [overwriteF_at, overwriteF_at]
      have hsp : lb.size - lb.pos < bs.length := by omega
      have hlt1 : (bs.take (lb.size - lb.pos)).length = lb.size - lb.pos := by
        simp
        omega
      have hld : (bs.drop (lb.size - lb.pos)).length = bs.length - (lb.size - lb.pos) := by
        simp
      by_cases hpW : hist.length ≤ p
      · by_cases hks : p - hist.length < lb.size - lb.pos
        · -- first chunk
          have hqe : p % 32768 = lb.pos + (p - hist.length) := by
            rw [hpos]
            omega
          rw [if_neg (by rw [hld, hsz] at *; omega), if_pos (by rw [hlt1]; omega)]
          rw [getD_take _ _ _ (by omega), getD_append_right _ _ _ hpW]
          congr 1
          omega
        · -- wrapped chunk
          have hqe : p % 32768 = (p - hist.length) - (lb.size - lb.pos) := by
            rw [hpos] at *
            rw [hsz] at *
            omega
          rw [if_pos (by rw [hld]; constructor <;> omega)]
          rw [getD_drop, getD_append_right _ _ _ hpW]
          congr 1
          rw [hsz] at *
          omega
      · push_neg at hpW
        rw [if_neg ?_, if_neg ?_, getD_append_left _ _ _ hpW]
        · exact hdat p hpW (by omega)
        · rintro ⟨hge, hlt⟩
          rw [hlt1] at hlt
          refine mod_ne_helper p (hist.length + ((p % 32768) - lb.pos))
            (by omega) (by omega) ?_
          rw [hpos] at hge hlt ⊢
          omega
        · rintro ⟨hge, hlt⟩
          rw [hld] at hlt
          refine mod_ne_helper p (hist.length + (lb.size - lb.pos) + (p % 32768))
            (by rw [hsz] at *; omega) (by rw [hsz] at *; omega) ?_
          rw [hpos] at *
          rw [hsz] at *
          omega

theorem sliceF_length (f : Nat → Nat) (i n : Nat) : (sliceF f i n).length = n := by
  induction n generalizing i with
  | zero => rfl
  | succ k ih => simp [sliceF, ih]

theorem sliceF_getD (f : Nat → Nat) (i n j : Nat) (h : j < n) :
    (sliceF f i n).getD j 0 = f (i + j) := by
  induction n generalizing i j with
  | zero => cases h
  | succ k ih =>
    cases j with
    | zero => simp [sliceF]
    | succ j' =>
      simp only [sliceF, List.getD_cons_succ]
      rw [ih _ _ (by omega)]
      congr 1
      omega

theorem sliceL_length (l : List Nat) (i n : Nat) :
    (sliceL l i n).length = min n (l.length - i) := by
  simp [sliceL]

theorem sliceL_getD (l : List Nat) (i n j : Nat) (h : j < n) :
    (sliceL l i n).getD j 0 = l.getD (i + j) 0 := by
  unfold sliceL
  rw [getD_take _ _ _ h, getD_drop]

theorem list_eq_of_getD (l1 l2 : List Nat) (hl : l1.length = l2.length)
    (h : ∀ i, i < l1.length → l1.getD i 0 = l2.getD i 0) : l1 = l2 := by
  induction l1 generalizing l2 with
  | nil => cases l2 with
    | nil => rfl
    | cons y l => cases hl
  | cons x l ih =>
    cases l2 with
    | nil => cases hl
    | cons y l2' =>
      have h0 := h 0 (by simp)
      simp only [List.getD_cons_zero] at h0
      subst h0
      congr 1
      refine ih l2' (by simpa using hl) (fun i hi => ?_)
      have := h (i + 1) (by simpa using Nat.succ_lt_succ hi)
      simpa using this

/-- `read_lookback_exact` returns exactly the history slice
`[W-d, W-d+dlen)` under the ring invariant. -/
theorem readLookbackExact_spec (lb : LB) (hist : List Nat) (dlen d : Nat)
    (h : lbInv lb hist) (h1 : dlen ≤ d) (h2 : d ≤ hist.length) (h3 : d ≤ 32768) :
    readLookbackExact lb dlen d = .ok (sliceL hist (hist.length - d) dlen) := by
  obtain ⟨hsz, hpos, hdat⟩ := h
  unfold readLookbackExact
  rw [if_neg (by omega), if_neg (by omega)]
  by_cases hc : lb.pos > d
  · rw [if_pos hc]
    congr 1
    refine list_eq_of_getD _ _ (by rw [sliceF_length, sliceL_length]; omega)
      (fun j hj => ?_)
    rw [sliceF_length] at hj
    rw [sliceF_getD _ _ _ _ hj, sliceL_getD _ _ _ _ hj]
    have hWd : hist.length - d + j < hist.length := by omega
    rw [← hdat (hist.length - d + j) hWd (by omega)]
    congr 1
    rw [hpos] at hc ⊢
    omega
  · rw [if_neg hc]
    push_neg at hc
    dsimp only
    congr 1
    refine list_eq_of_getD _ _ ?_ (fun j hj => ?_)
    · rw [List.length_append, sliceF_length, sliceF_length, sliceL_length]
      omega
    · rw [List.length_append, sliceF_length, sliceF_length] at hj
      rw [sliceL_getD _ _ _ _ (by omega)]
      by_cases hjw : j < min dlen (lb.size - (lb.size - (d - lb.pos)))
      · rw [getD_append_left _ _ _ (by rw [sliceF_length]; exact hjw),
          sliceF_getD _ _ _ _ hjw]
        rw [← hdat (hist.length - d + j) (by omega) (by omega)]
        congr 1
        rw [hpos] at hc hjw ⊢
        omega
      · rw [getD_append_right _ _ _ (by rw [sliceF_length]; omega), sliceF_length,
          sliceF_getD _ _ _ _ (by omega)]
        rw [← hdat (hist.length - d + j) (by omega) (by omega)]
        congr 1
        rw [hpos] at hc hjw ⊢
        omega

/-- Running the write calls from a fresh buffer maintains the ring
invariant for the accumulated history. -/
theorem applyOps_inv (ops : List WOp) (lb lb' : LB) (hist : List Nat)
    (h : lbInv lb hist) (hok : opsOk ops = true)
    (happ : applyOps lb ops = .ok lb') : lbInv lb' (hist ++ histOf ops) := by
  induction ops generalizing lb hist with
  | nil =>
    cases happ
    simpa [histOf] using h
  | cons op rest ih =>
    cases op with
    | byte b =>
      simp only [applyOps, applyOp, Res.bind_ok] at happ
      have := ih _ _ (lbInv_writeByte lb hist b h) (by simpa [opsOk] using hok) happ
      simpa [histOf, List.append_assoc] using this
    | data bs =>
      simp only [applyOps, applyOp] at happ
      simp only [opsOk, Bool.and_eq_true, decide_eq_true_eq] at hok
      have hb32 : bs.length ≤ 32768 := by
        have := hok.1
        norm_num [lookbackWindowSize] at this
        exact this
      obtain ⟨lb1, heq, hinv1⟩ := lbInv_writeData lb hist bs h hb32
      rw [heq, Res.bind_ok] at happ
      have := ih _ _ hinv1 hok.2 happ
      simpa [histOf, List.append_assoc] using this

/-- C1: for every sequence of `write_byte`/`write_data` calls (each block
within the 32768-byte window) whose cumulative output history is `histOf
ops` of size `W`, a subsequent `read_lookback_exact` with
`dlen ≤ d ≤ min W 32768` returns exactly the bytes of the output history at
positions `[W-d, W-d+dlen)` — covering the wrap-around cases and `d` equal
to the current write cursor. -/
theorem claim_C1 (ops : List WOp) (lb : LB) (dlen d : Nat)
    (hops : opsOk ops = true)
    (happ : applyOps (lbNew lookbackWindowSize) ops = .ok lb)
    (h1 : dlen ≤ d) (h2 : d ≤ (histOf ops).length) (h3 : d ≤ 32768) :
    readLookbackExact lb dlen d =
      .ok (sliceL (histOf ops) ((histOf ops).length - d) dlen) := by
  have hinv := applyOps_inv ops _ lb [] lbInv_init hops happ
  simp only [List.nil_append] at hinv
  exact readLookbackExact_spec lb (histOf ops) dlen d hinv h1 h2 h3

/-- Witness for C1: one `write_byte 7`, then a lookback of one byte at
distance 1 returns `[7]`. -/
theorem claim_C1_witness :
    readLookbackExact ⟨lookbackWindowSize, setF (fun _ => 0) 0 7, 1 % lookbackWindowSize⟩ 1 1 =
      .ok (sliceL (histOf [WOp.byte 7]) ((histOf [WOp.byte 7]).length - 1) 1) :=
  claim_C1 [WOp.byte 7] ⟨lookbackWindowSize, setF (fun _ => 0) 0 7, 1 % lookbackWindowSize⟩
    1 1 rfl rfl (by decide) (by decide) (by decide)

/-! ## Claim C2: HuffmanBlockMatch copies history chunks -/

/-- One `HuffmanBlockMatch` step under the ring invariant: the decoder
copies exactly `chunk = min 32768 (min cap (min len dist))` bytes, they are
the history slice at `dist` back, they are appended to the history, and the
state keeps the remaining length. -/
theorem readHuffmanBlockMatch_spec (st0 : St) (br : BitRd) (lb : LB)
    (hist : List Nat) (cap len dist : Nat) (lt dt : HTree) (fin : Bool)
    (hinv : lbInv lb hist) (hd1 : dist ≤ hist.length) (hd2 : dist ≤ 32768) :
    ∃ lb',
      readHuffmanBlockMatch ⟨st0, br, lb⟩ cap lt dt len dist fin =
        .ok (sliceL hist (hist.length - dist) (min 32768 (min cap (min len dist))),
          ⟨if min 32768 (min cap (min len dist)) = len then St.huffmanBlock lt dt fin
            else .huffmanBlockMatch lt dt (len - min 32768 (min cap (min len dist))) dist fin,
           br, lb'⟩) ∧
      (sliceL hist (hist.length - dist) (min 32768 (min cap (min len dist)))).length =
        min 32768 (min cap (min len dist)) ∧
      lbInv lb'
        (hist ++ sliceL hist (hist.length - dist) (min 32768 (min cap (min len dist)))) := by
  have hLW : lookbackWindowSize = 32768 := by norm_num [lookbackWindowSize]
  have hchunk : min lookbackWindowSize (min cap (min len dist)) =
      min 32768 (min cap (min len dist)) := by rw [hLW]
  have hcd : min 32768 (min cap (min len dist)) ≤ dist := by omega
  have hrle := readLookbackExact_spec lb hist (min 32768 (min cap (min len dist))) dist
    hinv hcd hd1 hd2
  have hout : (sliceL hist (hist.length - dist) (min 32768 (min cap (min len dist)))).length =
      min 32768 (min cap (min len dist)) := by
    rw [sliceL_length]
    omega
  obtain ⟨lb', hwd, hinv'⟩ := lbInv_writeData lb hist
    (sliceL hist (hist.length - dist) (min 32768 (min cap (min len dist)))) hinv
    (by omega)
  refine ⟨lb', ?_, hout, hinv'⟩
  unfold readHuffmanBlockMatch
  dsimp only
  rw [hchunk]
  simp only [Res.bind_eq_bind, hrle, Res.bind_ok, hwd]

/-- The slice of length 1 ending the history is its last byte. -/
theorem sliceL_last (h2 : List Nat) (b : Nat) :
    sliceL (h2 ++ [b]) ((h2 ++ [b]).length - 1) 1 = [b] := by
  have hlen2 : (h2 ++ [b]).length = h2.length + 1 := by simp
  refine list_eq_of_getD _ _ ?_ (fun i hi => ?_)
  · rw [sliceL_length, hlen2]
    simp
  · rw [sliceL_length, hlen2] at hi
    have hi0 : i = 0 := by omega
    subst hi0
    rw [sliceL_getD _ _ _ _ (by omega), hlen2]
    rw [show h2.length + 1 - 1 + 0 = h2.length from by omega]
    rw [getD_append_right _ _ _ (le_refl _)]
    simp

/-- The repeat idiom: with distance 1, iterating the match step emits `n`
copies of the most recently emitted byte. -/
theorem matchRun_repeat (n : Nat) (br : BitRd) (lb : LB) (h2 : List Nat) (b : Nat)
    (cap : Nat) (lt dt : HTree) (fin : Bool)
    (hinv : lbInv lb (h2 ++ [b])) (hcap : 1 ≤ cap) :
    ∃ m', matchRun (n + 2) ⟨.huffmanBlockMatch lt dt n 1 fin, br, lb⟩ cap =
      .ok (List.replicate n b, m') ∧ m'.st = .huffmanBlock lt dt fin := by
  induction n generalizing lb h2 with
  | zero =>
    obtain ⟨lb', hstep, hlen, hinv'⟩ := readHuffmanBlockMatch_spec
      (.huffmanBlockMatch lt dt 0 1 fin) br lb (h2 ++ [b]) cap 0 1 lt dt fin hinv
      (by simp) (by norm_num)
    have hch : min 32768 (min cap (min 0 1)) = 0 := by omega
    rw [hch, if_pos rfl] at hstep
    refine ⟨⟨.huffmanBlock lt dt fin, br, lb'⟩, ?_, rfl⟩
    show Res.bind (readHuffmanBlockMatch ⟨.huffmanBlockMatch lt dt 0 1 fin, br, lb⟩
        cap lt dt 0 1 fin)
      (fun om => Res.bind (matchRun 1 om.2 cap)
        (fun om2 => Res.ok (om.1 ++ om2.1, om2.2))) =
      Res.ok (List.replicate 0 b, ⟨.huffmanBlock lt dt fin, br, lb'⟩)
    rw [hstep, Res.bind_ok]
    dsimp only
    rw [show matchRun 1 ⟨St.huffmanBlock lt dt fin, br, lb'⟩ cap =
        Res.ok ([], ⟨St.huffmanBlock lt dt fin, br, lb'⟩) from rfl, Res.bind_ok]
    simp [sliceL]
  | succ k ih =>
    obtain ⟨lb', hstep, hlen, hinv'⟩ := readHuffmanBlockMatch_spec
      (.huffmanBlockMatch lt dt (k + 1) 1 fin) br lb (h2 ++ [b]) cap (k + 1) 1 lt dt fin hinv
      (by simp) (by norm_num)
    have hch : min 32768 (min cap (min (k + 1) 1)) = 1 := by omega
    rw [hch, sliceL_last h2 b] at hstep
    rw [hch, sliceL_last h2 b] at hinv'
    cases k with
    | zero =>
      rw [if_pos rfl] at hstep
      refine ⟨⟨.huffmanBlock lt dt fin, br, lb'⟩, ?_, rfl⟩
      show Res.bind (readHuffmanBlockMatch ⟨.huffmanBlockMatch lt dt 1 1 fin, br, lb⟩
          cap lt dt 1 1 fin)
        (fun om => Res.bind (matchRun 2 om.2 cap)
          (fun om2 => Res.ok (om.1 ++ om2.1, om2.2))) =
        Res.ok (List.replicate 1 b, ⟨.huffmanBlock lt dt fin, br, lb'⟩)
      rw [hstep, Res.bind_ok]
      dsimp only
      rw [show matchRun 2 ⟨St.huffmanBlock lt dt fin, br, lb'⟩ cap =
          Res.ok ([], ⟨St.huffmanBlock lt dt fin, br, lb'⟩) from rfl, Res.bind_ok]
      simp
    | succ j =>
      rw [if_neg (by omega)] at hstep
      rw [show j + 1 + 1 - 1 = j + 1 from by omega] at hstep
      obtain ⟨m', hrun, hst⟩ := ih lb' (h2 ++ [b])
        (by simpa [List.append_assoc] using hinv')
      refine ⟨m', ?_, hst⟩
      show Res.bind (readHuffmanBlockMatch
          ⟨.huffmanBlockMatch lt dt (j + 1 + 1) 1 fin, br, lb⟩ cap lt dt (j + 1 + 1) 1 fin)
        (fun om => Res.bind (matchRun (j + 1 + 2) om.2 cap)
          (fun om2 => Res.ok (om.1 ++ om2.1, om2.2))) =
        Res.ok (List.replicate (j + 1 + 1) b, m')
      rw [hstep, Res.bind_ok]
      dsimp only
      rw [hrun, Res.bind_ok]
      simp [List.replicate_succ]

/-- C2: one `HuffmanBlockMatch` step copies exactly
`chunk = min(|dst|, length, distance, 32768)` bytes, those bytes are the
slice of the emitted history `distance` back, and they are appended to the
history (the invariant holds for the extended history, with the remaining
length kept in the state); moreover iterating the step with distance 1
emits `n` copies of the most recently emitted byte (the repeat idiom, e.g.
length 10 / distance 1 yields ten copies). -/
theorem claim_C2 (st0 : St) (br : BitRd) (lb : LB) (hist : List Nat)
    (cap len dist : Nat) (lt dt : HTree) (fin : Bool)
    (hinv : lbInv lb hist) (hd1 : dist ≤ hist.length) (hd2 : dist ≤ 32768) :
    (∃ lb',
      readHuffmanBlockMatch ⟨st0, br, lb⟩ cap lt dt len dist fin =
        .ok (sliceL hist (hist.length - dist) (min 32768 (min cap (min len dist))),
          ⟨if min 32768 (min cap (min len dist)) = len then St.huffmanBlock lt dt fin
            else .huffmanBlockMatch lt dt (len - min 32768 (min cap (min len dist))) dist fin,
           br, lb'⟩) ∧
      (sliceL hist (hist.length - dist) (min 32768 (min cap (min len dist)))).length =
        min 32768 (min cap (min len dist)) ∧
      lbInv lb'
        (hist ++ sliceL hist (hist.length - dist) (min 32768 (min cap (min len dist))))) ∧
    (∀ n h2 b, hist = h2 ++ [b] → 1 ≤ cap →
      ∃ m', matchRun (n + 2) ⟨.huffmanBlockMatch lt dt n 1 fin, br, lb⟩ cap =
        .ok (List.replicate n b, m') ∧ m'.st = .huffmanBlock lt dt fin) := by
  refine ⟨readHuffmanBlockMatch_spec st0 br lb hist cap len dist lt dt fin hinv hd1 hd2,
    fun n h2 b hh hcap => ?_⟩
  subst hh
  exact matchRun_repeat n br lb h2 b cap lt dt fin hinv hcap

theorem lbC2_inv : lbInv lbC2 [5] := by
  refine ⟨by norm_num [lbC2, lookbackWindowSize], by norm_num [lbC2, lookbackWindowSize], ?_⟩
  intro p hp hw
  have hp0 : p = 0 := by simpa using hp
  subst hp0
  rfl

/-- Witness for C2 at a concrete buffer holding history `[5]`: a match of
length 10, distance 1 with a 1-byte destination emits `[5]` and keeps 9
bytes pending; iterating from length 10 emits ten copies of `5`. -/
theorem claim_C2_witness :
    (∃ lb',
      readHuffmanBlockMatch ⟨.blockHeader, ⟨[], 0, 0⟩, lbC2⟩ 1 .nil .nil 10 1 false =
        .ok (sliceL [5] ([5].length - 1) (min 32768 (min 1 (min 10 1))),
          ⟨if min 32768 (min 1 (min 10 1)) = 10 then St.huffmanBlock .nil .nil false
            else .huffmanBlockMatch .nil .nil (10 - min 32768 (min 1 (min 10 1))) 1 false,
           ⟨[], 0, 0⟩, lb'⟩) ∧
      (sliceL [5] ([5].length - 1) (min 32768 (min 1 (min 10 1)))).length =
        min 32768 (min 1 (min 10 1)) ∧
      lbInv lb' ([5] ++ sliceL [5] ([5].length - 1) (min 32768 (min 1 (min 10 1))))) ∧
    (∃ m', matchRun 12 ⟨.huffmanBlockMatch .nil .nil 10 1 false, ⟨[], 0, 0⟩, lbC2⟩ 1 =
      .ok (List.replicate 10 5, m') ∧ m'.st = .huffmanBlock .nil .nil false) :=
  ⟨(claim_C2 .blockHeader ⟨[], 0, 0⟩ lbC2 [5] 1 10 1 .nil .nil false lbC2_inv
      (by norm_num) (by norm_num)).1,
   (claim_C2 .blockHeader ⟨[], 0, 0⟩ lbC2 [5] 1 10 1 .nil .nil false lbC2_inv
      (by norm_num) (by norm_num)).2 10 [] 5 rfl (by norm_num)⟩

